import Mathlib

set_option linter.unusedVariables false

/-
Verification of the job-scheduling and process-supervision core of the
video_compressor repository (packages/main/src/job/JobManager.ts, with the
shared data model of packages/main/src/types.ts).

Modelling conventions:
* JS `Map<string, ActiveJob>` is modelled as an insertion-ordered association
  list (`mapGet` / `mapSet` mirror `Map.get` / `Map.set`).
* JS numbers are modelled as `Nat` / `Int` / `Rat` as appropriate; file sizes,
  timestamps and byte counts are `Nat`, compression ratios are `Rat`.
* The external world (file system sizes, process exit codes, chunk arrivals,
  clock readings) is supplied as parameters of the corresponding events.
* Calls to the `emit` method, to `historyManager.addItem` and to
  `ChildProcess.kill` are recorded in the `emitted`, `history` and `signals`
  logs of the state, in call order; these logs are pure observers of the
  side-effecting calls the source makes.
* The `spawned` flag models the presence of the `job.process` handle (it is
  never cleared in the source); the `procClosed` flag models the fact that a
  process delivers at most one `close` event.
-/

namespace VC

/-- Status values of `ActiveJob.status` in JobManager.ts. -/
inductive JobStatus
  | waiting
  | running
  | paused
  | completed
  | failed
  | cancelled
deriving DecidableEq

/-- Video part of a `CompressionPreset` (types.ts lines 69-81). Optional
    fields of the interface are `Option`. -/
structure VideoSettings where
  codec : String
  crf : Option Nat
  bitrate : Option String
  preset : String
  profile : Option String
  level : Option String
  pixelFormat : String
  maxWidth : Option Nat
  maxHeight : Option Nat
  fps : Option Nat
  twoPass : Bool
deriving DecidableEq

/-- Audio part of a `CompressionPreset` (types.ts lines 82-87). -/
structure AudioSettings where
  codec : String
  bitrate : String
  sampleRate : Option Nat
  channels : Option Nat
deriving DecidableEq

/-- CompressionPreset (types.ts lines 66-90). -/
structure CompressionPreset where
  id : String
  name : String
  video : Option VideoSettings
  audio : Option AudioSettings
  removeVideo : Option Bool
  removeAudio : Option Bool
deriving DecidableEq

/-- Partial<CompressionPreset>: the `customSettings` of a submission. A
    `none` field is an absent property; present properties replace the
    preset field wholesale under the shallow spread of the source. -/
structure PresetOverride where
  id : Option String
  name : Option String
  video : Option VideoSettings
  audio : Option AudioSettings
  removeVideo : Option Bool
  removeAudio : Option Bool
deriving DecidableEq

/-- JobConfig (types.ts lines 92-98). `targetSize` is in bytes. -/
structure JobConfig where
  inputPath : String
  outputPath : String
  preset : CompressionPreset
  targetSize : Option Nat
  customSettings : Option PresetOverride
deriving DecidableEq

/-- Payload of one `historyManager.addItem` call (JobManager.ts lines
    632-641 and 654-664); `id` and `timestamp` are added inside the
    HistoryManager collaborator and are not part of this core. -/
structure HistoryItem where
  inputPath : String
  outputPath : String
  preset : String
  originalSize : Nat
  compressedSize : Nat
  compressionRatio : Rat
  duration : Int
  status : String
  error : Option String
deriving DecidableEq

/-- Payload of one `completed` event emission. -/
structure CompletedEvent where
  jobId : String
  success : Bool
  error : Option String
deriving DecidableEq

/-- ActiveJob (JobManager.ts lines 401-410) plus the two process-lifecycle
    flags and the accumulated stderr of the supervising closure (the local
    variable `stderr` of `executeJob`, which always equals what the job has
    received so far). -/
structure ActiveJob where
  id : String
  config : JobConfig
  spawned : Bool
  procClosed : Bool
  status : JobStatus
  progress : Rat
  startTime : Option Nat
  error : Option String
  outputSize : Option Nat
  stderrBuf : String
deriving DecidableEq

/-- Lookup in an insertion-ordered association list; mirrors `Map.get`. -/
def mapGet {α : Type} (m : List (String × α)) (k : String) : Option α :=
  match m with
  | [] => none
  | (k2, v) :: rest => if k2 = k then some v else mapGet rest k

/-- Update or append; mirrors `Map.set` (replaces in place, appends fresh
    keys at the end, preserving insertion order). -/
def mapSet {α : Type} (m : List (String × α)) (k : String) (v : α) :
    List (String × α) :=
  match m with
  | [] => [(k, v)]
  | (k2, v2) :: rest =>
      if k2 = k then (k2, v) :: rest else (k2, v2) :: mapSet rest k v

/-- JobManager coordinator state: the registry map `activeJobs`, the FIFO
    `jobQueue`, the `runningJobs` array, and the observer logs for the
    addItem / emit / kill calls, plus two ghost logs recording the order of
    successful submissions and of Waiting to Running admissions. -/
structure JM where
  activeJobs : List (String × ActiveJob)
  jobQueue : List String
  runningJobs : List String
  history : List HistoryItem
  emitted : List CompletedEvent
  signals : List (String × String)
  submittedLog : List String
  admittedLog : List String
deriving DecidableEq

/-- Empty JobManager, as constructed (JobManager.ts lines 413-415). -/
def initJM : JM :=
  { activeJobs := [], jobQueue := [], runningJobs := [], history := [],
    emitted := [], signals := [], submittedLog := [], admittedLog := [] }

/-
Progress parser (JobManager.ts lines 827-871). The source applies five
non-global JS regular expressions to the whole accumulated stderr buffer;
a non-global `String.match` returns the leftmost match. Each regex is
modelled by a matcher that tries to match at the head of a list of
characters, and `findFirst` scans positions left to right, exactly the
leftmost-match rule. For each of the greedy regexes the backtracking of
the JS engine is vacuous (shrinking a `\s` or `[0-9.]` run always places a
character of that class where a character outside the class is required),
so the maximal-munch matchers below are exact. JS `\s` is modelled on its
ASCII members; the captured groups are returned as character lists.
-/

/-- ASCII members of the JS regex class `\s`. -/
def wsChar (c : Char) : Bool :=
  c = ' ' || c = '\t' || c = '\n' || c = '\r' || c = '\x0b' || c = '\x0c'

/-- Character class `[0-9.]` used by the speed, fps and bitrate regexes. -/
def numChar (c : Char) : Bool :=
  c.isDigit || c = '.'

/-- Exact 16-character window shape of the time regex
    `time=(\d\x7b2\x7d):(\d\x7b2\x7d):(\d\x7b2\x7d\.\d\x7b2\x7d)`; returns the three captured
    groups when the window matches. -/
def timeShape : List Char → Option (List Char × List Char × List Char)
  | [t1, i1, m1, e1, q1, h1, h2, c1, n1, n2, c2, s1, s2, d1, f1, f2] =>
    if t1 = 't' ∧ i1 = 'i' ∧ m1 = 'm' ∧ e1 = 'e' ∧ q1 = '=' ∧
       h1.isDigit ∧ h2.isDigit ∧ c1 = ':' ∧ n1.isDigit ∧ n2.isDigit ∧
       c2 = ':' ∧ s1.isDigit ∧ s2.isDigit ∧ d1 = '.' ∧ f1.isDigit ∧ f2.isDigit then
      some ([h1, h2], [n1, n2], [s1, s2, d1, f1, f2])
    else none
  | _ => none

/-- Matcher for the fixed-width time regex at the head of `l`: its
    16-character window must have the literal/digit shape. -/
def matchTimeAt (l : List Char) : Option (List Char × List Char × List Char) :=
  timeShape (l.take 16)

/-- Matcher for `speed=\s*([0-9.]+)x` at the head of `l`: the literal,
    a maximal whitespace run, a maximal nonempty `[0-9.]` run (the group),
    then a literal `x`. The greedy runs cannot backtrack (shrinking one
    puts a character of its class where a character outside the class is
    required), so this maximal-munch reading is exact. -/
def matchSpeedAt (l : List Char) : Option (List Char) :=
  if l.take 6 = [ 's', 'p', 'e', 'e', 'd', '='] then
    if ((l.drop 6).dropWhile wsChar).takeWhile numChar = [] then none
    else
      if (((l.drop 6).dropWhile wsChar).dropWhile numChar).head? = some 'x' then
        some (((l.drop 6).dropWhile wsChar).takeWhile numChar)
      else none
  else none

/-- Matcher for `fps=\s*([0-9.]+)` at the head of `l`: the literal, a
    maximal whitespace run, then a maximal nonempty `[0-9.]` run. -/
def matchFpsAt (l : List Char) : Option (List Char) :=
  if l.take 4 = [ 'f', 'p', 's', '='] then
    if ((l.drop 4).dropWhile wsChar).takeWhile numChar = [] then none
    else some (((l.drop 4).dropWhile wsChar).takeWhile numChar)
  else none

/-- Matcher for `bitrate=\s*([0-9.]+[kmg]?bits\/s)` at the head of `l`.
    After the maximal digit run, the optional `[kmg]` is taken exactly
    when present (if taken it must be followed by `bits/s`; refusing it
    cannot help, since `bits/s` starts with `b`, not a `[kmg]` or `[0-9.]`
    character, so the greedy choice is forced and deterministic). -/
def matchBitrateAt (l : List Char) : Option (List Char) :=
  if l.take 8 = [ 'b', 'i', 't', 'r', 'a', 't', 'e', '='] then
    if ((l.drop 8).dropWhile wsChar).takeWhile numChar = [] then none
    else
      if (((l.drop 8).dropWhile wsChar).dropWhile numChar).head? = some 'k' ∨
         (((l.drop 8).dropWhile wsChar).dropWhile numChar).head? = some 'm' ∨
         (((l.drop 8).dropWhile wsChar).dropWhile numChar).head? = some 'g' then
        if ((((l.drop 8).dropWhile wsChar).dropWhile numChar).drop 1).take 6 =
            [ 'b', 'i', 't', 's', '/', 's'] then
          some (((l.drop 8).dropWhile wsChar).takeWhile numChar ++
            (((l.drop 8).dropWhile wsChar).dropWhile numChar).take 1 ++
            [ 'b', 'i', 't', 's', '/', 's'])
        else none
      else
        if (((l.drop 8).dropWhile wsChar).dropWhile numChar).take 6 =
            [ 'b', 'i', 't', 's', '/', 's'] then
          some (((l.drop 8).dropWhile wsChar).takeWhile numChar ++
            [ 'b', 'i', 't', 's', '/', 's'])
        else none
  else none

/-- Matcher for `size=\s*([0-9]+[kmg]?B)` at the head of `l` (digits only,
    no dot, in this regex); same forced-greedy reading as the bitrate
    matcher. -/
def matchSizeAt (l : List Char) : Option (List Char) :=
  if l.take 5 = [ 's', 'i', 'z', 'e', '='] then
    if ((l.drop 5).dropWhile wsChar).takeWhile Char.isDigit = [] then none
    else
      if (((l.drop 5).dropWhile wsChar).dropWhile Char.isDigit).head? = some 'k' ∨
         (((l.drop 5).dropWhile wsChar).dropWhile Char.isDigit).head? = some 'm' ∨
         (((l.drop 5).dropWhile wsChar).dropWhile Char.isDigit).head? = some 'g' then
        if ((((l.drop 5).dropWhile wsChar).dropWhile Char.isDigit).drop 1).head? = some 'B' then
          some (((l.drop 5).dropWhile wsChar).takeWhile Char.isDigit ++
            (((l.drop 5).dropWhile wsChar).dropWhile Char.isDigit).take 1 ++ [ 'B'])
        else none
      else
        if (((l.drop 5).dropWhile wsChar).dropWhile Char.isDigit).head? = some 'B' then
          some (((l.drop 5).dropWhile wsChar).takeWhile Char.isDigit ++ [ 'B'])
        else none
  else none

/-- Leftmost match: try the matcher at every position from the left;
    exactly the semantics of a non-global JS `String.match`. -/
def findFirst {α : Type} (m : List Char → Option α) : List Char → Option α
  | [] => m []
  | c :: rest =>
      match m (c :: rest) with
      | some a => some a
      | none => findFirst m rest

/-- Result of the five regex matches of `parseProgress` on one buffer. -/
structure ParsedFields where
  time : Option (List Char × List Char × List Char)
  speed : Option (List Char)
  fps : Option (List Char)
  bitrate : Option (List Char)
  size : Option (List Char)
deriving DecidableEq

/-- Evaluation of the five `stderr.match` calls of `parseProgress`
    (JobManager.ts lines 832-836) on the whole accumulated buffer. -/
def parseProgressFields (s : String) : ParsedFields :=
  { time := findFirst matchTimeAt s.toList,
    speed := findFirst matchSpeedAt s.toList,
    fps := findFirst matchFpsAt s.toList,
    bitrate := findFirst matchBitrateAt s.toList,
    size := findFirst matchSizeAt s.toList }

/-- The fps digit run of every position where the fps regex matches inside
    `s` is closed by a following non-`[0-9.]` character inside `s` (in a
    complete ffmpeg progress record the fps number is followed by a space,
    so this holds for every buffer ending in a record terminator). Without
    it the fps group itself can still grow when more digits arrive, so it
    is the precise condition under which the first fps match is frozen. -/
def fpsComplete (s : List Char) : Prop :=
  ∀ l ∈ s.tails, matchFpsAt l ≠ none →
    ((l.drop 4).dropWhile wsChar).dropWhile numChar ≠ []

instance fpsCompleteDecidable (s : List Char) : Decidable (fpsComplete s) :=
  List.decidableBAll
    (fun l => matchFpsAt l ≠ none → ((l.drop 4).dropWhile wsChar).dropWhile numChar ≠ [])
    s.tails

/-- Numeric value of a decimal digit character. -/
def digitVal (c : Char) : Nat := c.toNat - 48

/-- parseInt of a two-digit captured group. -/
def twoDigits (l : List Char) : Nat :=
  match l with
  | [a, b] => 10 * digitVal a + digitVal b
  | _ => 0

/-- parseFloat of the captured `dd.dd` seconds group, as an exact
    rational (the JS double rounding of such short decimals is
    value-preserving at the precision the parser uses). -/
def secondsVal (l : List Char) : Rat :=
  match l with
  | [a, b, _, d, e] =>
      ((10 * digitVal a + digitVal b : Nat) : Rat) +
        ((10 * digitVal d + digitVal e : Nat) : Rat) / 100
  | _ => 0

/-- Progress percentage derived from the time groups (JobManager.ts lines
    838-849): `min(100, currentTime / 300 * 100)` with the fixed fallback
    duration of 300 seconds. -/
def progressFromTime (tg : List Char × List Char × List Char) : Rat :=
  let hours := twoDigits tg.1
  let minutes := twoDigits tg.2.1
  let seconds := secondsVal tg.2.2
  let currentTime : Rat := (hours : Rat) * 3600 + (minutes : Rat) * 60 + seconds
  min 100 (currentTime / 300 * 100)

/-- Effect of one stderr chunk on a job: the chunk is appended to the one
    growing buffer and `parseProgress` re-scans the whole buffer, updating
    `job.progress` only when the time regex matched (lines 605-608 and
    827-849). -/
def appendChunk (job : ActiveJob) (chunk : String) : ActiveJob :=
  { job with
      stderrBuf := job.stderrBuf ++ chunk,
      progress :=
        match (parseProgressFields (job.stderrBuf ++ chunk)).time with
        | some tg => progressFromTime tg
        | none => job.progress }

/-- JS `stderr.slice(-500)`: the trailing at-most-`n` characters. -/
def sliceLast (n : Nat) (s : String) : String :=
  String.mk (s.toList.drop (s.toList.length - n))

/-- String interpolation of a nullable exit code (`null` prints as
    `"null"` in JS). -/
def exitCodeRepr (code : Option Int) : String :=
  match code with
  | some n => toString n
  | none => "null"

/-- Admission of one waiting job (the `runningJobs.push` of `processQueue`
    at line 578 together with the synchronous successful-spawn prefix of
    `executeJob`, lines 588-601: status becomes running, the start time is
    recorded, the process handle is attached). The ghost `admittedLog`
    records the admission order. -/
def admitJob (now : Nat) (s : JM) (jobId : String) (job : ActiveJob) : JM :=
  let job2 := { job with status := JobStatus.running, startTime := some now, spawned := true }
  { s with
      runningJobs := s.runningJobs ++ [jobId],
      activeJobs := mapSet s.activeJobs jobId job2,
      admittedLog := s.admittedLog ++ [jobId] }

/-- Loop body of `processQueue` (lines 567-581), with the fuel argument
    bounding the iterations; each iteration shifts one queue element, so
    the initial queue length is exact fuel. -/
def processQueueAux (K now : Nat) : Nat → JM → JM
  | 0, s => s
  | fuel + 1, s =>
    if s.runningJobs.length < K then
      match s.jobQueue with
      | [] => s
      | jobId :: rest =>
        let s2 := { s with jobQueue := rest }
        match mapGet s2.activeJobs jobId with
        | none => processQueueAux K now fuel s2
        | some job =>
          if job.status = JobStatus.waiting then
            processQueueAux K now fuel (admitJob now s2 jobId job)
          else processQueueAux K now fuel s2
    else s

/-- JobManager.processQueue: admit waiting jobs in FIFO order while the
    running count is below the configured maximum. -/
def processQueue (K now : Nat) (s : JM) : JM :=
  processQueueAux K now s.jobQueue.length s

/-- Job record created by startJob (lines 478-483). -/
def freshJob (jobId : String) (cfg : JobConfig) : ActiveJob :=
  { id := jobId, config := cfg, spawned := false, procClosed := false,
    status := JobStatus.waiting, progress := 0, startTime := none,
    error := none, outputSize := none, stderrBuf := "" }

/-- JobManager.startJob (lines 456-490). The input-existence check is the
    `inputExists` parameter; a failed check throws before any state
    change. The output-directory creation and the output-path uniqueness
    rewrite (lines 464-476) touch only the file system and the
    `config.outputPath` string and are not modelled; `jobId` is the fresh
    uuid. The ghost `submittedLog` records the submission order. -/
def submitJob (K now : Nat) (s : JM) (jobId : String) (cfg : JobConfig)
    (inputExists : Bool) : Except String JM :=
  if inputExists then
    Except.ok (processQueue K now
      { s with
          activeJobs := mapSet s.activeJobs jobId (freshJob jobId cfg),
          jobQueue := s.jobQueue ++ [jobId],
          submittedLog := s.submittedLog ++ [jobId] })
  else Except.error "Input file does not exist"

/-- JobManager.cancelJob (lines 492-519): unconditionally kills an owned
    process, sets status cancelled, removes the id from queue and run-set
    (first occurrence, as `indexOf`/`splice` does), emits a completion
    event and re-runs admission. There is no terminal-state guard in the
    source. -/
def cancelJob (K now : Nat) (s : JM) (jobId : String) : Except String JM :=
  match mapGet s.activeJobs jobId with
  | none => Except.error "Job not found"
  | some job =>
    let sigs := if job.spawned then s.signals ++ [(jobId, "SIGKILL")] else s.signals
    let s2 : JM :=
      { s with
          signals := sigs,
          activeJobs := mapSet s.activeJobs jobId { job with status := JobStatus.cancelled },
          jobQueue := s.jobQueue.erase jobId,
          runningJobs := s.runningJobs.erase jobId,
          emitted := s.emitted ++
            [{ jobId := jobId, success := false, error := some "Job cancelled" }] }
    Except.ok (processQueue K now s2)

/-- JobManager.pauseJob (lines 521-532): SIGSTOP and transition to paused
    only when the job is running and owns a process; otherwise the call
    returns normally having changed nothing. -/
def pauseJob (s : JM) (jobId : String) : Except String JM :=
  match mapGet s.activeJobs jobId with
  | none => Except.error "Job not found"
  | some job =>
    if job.status = JobStatus.running ∧ job.spawned = true then
      Except.ok
        { s with
            signals := s.signals ++ [(jobId, "SIGSTOP")],
            activeJobs := mapSet s.activeJobs jobId { job with status := JobStatus.paused } }
    else Except.ok s

/-- JobManager.resumeJob (lines 534-545): SIGCONT and transition to
    running only when the job is paused and owns a process; otherwise the
    call returns normally having changed nothing. -/
def resumeJob (s : JM) (jobId : String) : Except String JM :=
  match mapGet s.activeJobs jobId with
  | none => Except.error "Job not found"
  | some job =>
    if job.status = JobStatus.paused ∧ job.spawned = true then
      Except.ok
        { s with
            signals := s.signals ++ [(jobId, "SIGCONT")],
            activeJobs := mapSet s.activeJobs jobId { job with status := JobStatus.running } }
    else Except.ok s

/-- Elapsed wall time of the close handler:
    `updatedJob.startTime ? Date.now() - updatedJob.startTime : 0`. -/
def closeDuration (job : ActiveJob) (now : Nat) : Int :=
  match job.startTime with
  | some t => (now : Int) - (t : Int)
  | none => 0

/-- Job update of the successful close branch (lines 616-624): status
    completed, progress forced to 100, measured output size recorded when
    the output file exists. -/
def closeSuccessJob (job : ActiveJob) (outputExists : Bool) (outputFsSize : Nat) :
    ActiveJob :=
  { job with
      status := JobStatus.completed, progress := 100, procClosed := true,
      outputSize := if outputExists then some outputFsSize else job.outputSize }

/-- History entry of the successful close branch (lines 626-641):
    `outputSize || 0` is `getD 0`, and the ratio is output over input when
    the input size is positive, else 1. -/
def closeSuccessEntry (job : ActiveJob) (inputSize : Nat) (outputExists : Bool)
    (outputFsSize : Nat) (now : Nat) : HistoryItem :=
  let oSize : Nat := (closeSuccessJob job outputExists outputFsSize).outputSize.getD 0
  { inputPath := job.config.inputPath, outputPath := job.config.outputPath,
    preset := job.config.preset.id, originalSize := inputSize,
    compressedSize := oSize,
    compressionRatio := if 0 < inputSize then (oSize : Rat) / (inputSize : Rat) else 1,
    duration := closeDuration job now, status := "success", error := none }

/-- Error text of the failing close branch (line 652): exit code plus the
    trailing 500 characters of the accumulated diagnostic output. -/
def failMessage (code : Option Int) (stderrBuf : String) : String :=
  "FFmpeg exited with code " ++ exitCodeRepr code ++ ". Error: " ++ sliceLast 500 stderrBuf

/-- Job update of the failing close branch (lines 650-652). -/
def closeFailJob (job : ActiveJob) (code : Option Int) : ActiveJob :=
  { job with
      status := JobStatus.failed, error := some (failMessage code job.stderrBuf),
      procClosed := true }

/-- History entry of the failing close branch (lines 654-664): zero
    compressed size and zero ratio. -/
def closeFailEntry (job : ActiveJob) (code : Option Int) (inputSize : Nat)
    (now : Nat) : HistoryItem :=
  { inputPath := job.config.inputPath, outputPath := job.config.outputPath,
    preset := job.config.preset.id, originalSize := inputSize, compressedSize := 0,
    compressionRatio := 0, duration := closeDuration job now, status := "failed",
    error := some (failMessage code job.stderrBuf) }

/-- Close handler of the spawned process (lines 610-676). The file-system
    reads of the handler (`statSync` on input and output) are the
    `inputSize`, `outputExists`, `outputFsSize` parameters; `now` is the
    `Date.now()` reading. The `emit` of the log event is not modelled. -/
def closeJob (K now : Nat) (s : JM) (jobId : String) (code : Option Int)
    (inputSize : Nat) (outputExists : Bool) (outputFsSize : Nat) : JM :=
  match mapGet s.activeJobs jobId with
  | none => s
  | some job =>
    let s1 := { s with runningJobs := s.runningJobs.filter (fun i => decide (i ≠ jobId)) }
    if code = some 0 then
      processQueue K now
        { s1 with
            history := s1.history ++
              [closeSuccessEntry job inputSize outputExists outputFsSize now],
            emitted := s1.emitted ++ [{ jobId := jobId, success := true, error := none }],
            activeJobs := mapSet s1.activeJobs jobId
              (closeSuccessJob job outputExists outputFsSize) }
    else
      processQueue K now
        { s1 with
            history := s1.history ++ [closeFailEntry job code inputSize now],
            emitted := s1.emitted ++ [{ jobId := jobId, success := false, error := some (failMessage code job.stderrBuf) }],
            activeJobs := mapSet s1.activeJobs jobId (closeFailJob job code) }

/-- Error handler of the spawned process (lines 678-689): the job is
    marked failed with the spawn error message, removed from the run-set,
    a completion event is emitted and admission re-runs. No history entry
    is written by this handler. -/
def procErrJob (K now : Nat) (s : JM) (jobId : String) (msg : String) : JM :=
  match mapGet s.activeJobs jobId with
  | none => s
  | some job =>
    let err := "FFmpeg process error: " ++ msg
    let job1 := { job with status := JobStatus.failed, error := some err }
    let s2 :=
      { s with
          runningJobs := s.runningJobs.filter (fun i => decide (i ≠ jobId)),
          activeJobs := mapSet s.activeJobs jobId job1,
          emitted := s.emitted ++ [{ jobId := jobId, success := false, error := some err }] }
    processQueue K now s2

/-- Data handler of the spawned process stderr (lines 605-608). -/
def stderrDataJob (s : JM) (jobId : String) (chunk : String) : JM :=
  match mapGet s.activeJobs jobId with
  | none => s
  | some job =>
      { s with activeJobs := mapSet s.activeJobs jobId (appendChunk job chunk) }

/-- JobManager.cleanup (lines 884-895): SIGKILL every job that owns a
    process and has status running (paused jobs are not matched by the
    source condition), then discard the registry, the queue and the
    run-set. -/
def cleanup (s : JM) : JM :=
  let kills := s.activeJobs.filterMap
    (fun p => if p.2.spawned ∧ p.2.status = JobStatus.running then
                some (p.1, "SIGKILL")
              else none)
  { s with signals := s.signals ++ kills, activeJobs := [], jobQueue := [], runningJobs := [] }

/-- Events of the coordinator: the public operations plus the callbacks the
    spawned process can deliver. The guard `spawned = true` and
    `procClosed = false` on the process callbacks models that only a
    spawned, not yet reaped process delivers them; a fresh uuid never
    collides, so a submit with an existing id is unrepresentable and is
    skipped. -/
inductive Ev
  | submit (jobId : String) (cfg : JobConfig) (inputExists : Bool) (now : Nat)
  | cancel (jobId : String) (now : Nat)
  | pause (jobId : String)
  | resume (jobId : String)
  | stderrData (jobId : String) (chunk : String)
  | close (jobId : String) (code : Option Int) (inputSize : Nat)
      (outputExists : Bool) (outputFsSize : Nat) (now : Nat)
  | procErr (jobId : String) (msg : String) (now : Nat)

/-- One event of the single-threaded event loop. Thrown submission errors
    leave the state unchanged. -/
def step (K : Nat) (s : JM) (e : Ev) : JM :=
  match e with
  | Ev.submit jobId cfg inputExists now =>
      (match mapGet s.activeJobs jobId with
       | some _ => s
       | none =>
         match submitJob K now s jobId cfg inputExists with
         | Except.ok s2 => s2
         | Except.error _ => s)
  | Ev.cancel jobId now =>
      (match cancelJob K now s jobId with
       | Except.ok s2 => s2
       | Except.error _ => s)
  | Ev.pause jobId =>
      (match pauseJob s jobId with
       | Except.ok s2 => s2
       | Except.error _ => s)
  | Ev.resume jobId =>
      (match resumeJob s jobId with
       | Except.ok s2 => s2
       | Except.error _ => s)
  | Ev.stderrData jobId chunk =>
      (match mapGet s.activeJobs jobId with
       | some job =>
         if job.spawned = true ∧ job.procClosed = false then
           stderrDataJob s jobId chunk
         else s
       | none => s)
  | Ev.close jobId code inputSize outputExists outputFsSize now =>
      (match mapGet s.activeJobs jobId with
       | some job =>
         if job.spawned = true ∧ job.procClosed = false then
           closeJob K now s jobId code inputSize outputExists outputFsSize
         else s
       | none => s)
  | Ev.procErr jobId msg now =>
      (match mapGet s.activeJobs jobId with
       | some job =>
         if job.spawned = true ∧ job.procClosed = false then
           procErrJob K now s jobId msg
         else s
       | none => s)

/-- Run of the coordinator from the empty state over an event sequence
    with configured maximum parallelism `K`. -/
def run (K : Nat) (evs : List Ev) : JM :=
  evs.foldl (step K) initJM

/-- Count of jobs whose recorded status is running. -/
def countRunning (s : JM) : Nat :=
  (s.activeJobs.filter (fun p => decide (p.2.status = JobStatus.running))).length

/-- JS truthiness of an optional boolean. -/
def truthyBool (b : Option Bool) : Bool :=
  match b with
  | some x => x
  | none => false

/-- JS truthiness of an optional string (the empty string is falsy). -/
def truthyStr (s : Option String) : Bool :=
  match s with
  | some v => !v.isEmpty
  | none => false

/-- JS truthiness of an optional number (zero is falsy). -/
def truthyNat (n : Option Nat) : Bool :=
  match n with
  | some k => k != 0
  | none => false

/-- Value of a nonempty leading decimal-digit run. -/
def digitsPrefixVal (l : List Char) : Option Nat :=
  let ds := l.takeWhile Char.isDigit
  if ds = [] then none
  else some (ds.foldl (fun acc c => 10 * acc + digitVal c) 0)

/-- JS `parseInt` with radix 10 on the strings this core feeds it: skip
    leading whitespace, optional sign, then a nonempty digit run; `none`
    models the NaN result. -/
def parseIntJS (s : String) : Option Int :=
  let l := s.toList.dropWhile wsChar
  match l with
  | '-' :: rest => (digitsPrefixVal rest).map (fun n => -(n : Int))
  | '+' :: rest => (digitsPrefixVal rest).map (fun n => (n : Int))
  | _ => (digitsPrefixVal l).map (fun n => (n : Int))

/-- JS `String.replace` with the string pattern `k`: removes the first
    occurrence only. -/
def replaceFirstK : List Char → List Char
  | [] => []
  | c :: rest => if c = 'k' then rest else c :: replaceFirstK rest

/-- JS `Math.round`: round half toward positive infinity. -/
def jsRound (q : Rat) : Int :=
  ⌊q + (1 : Rat) / 2⌋

/-- JS `Math.max` on numbers (NaN does not arise at the call sites
    modelled). -/
def jsMax (a b : Rat) : Rat := if a ≤ b then b else a

/-- JS `Math.min` on numbers. -/
def jsMin (a b : Rat) : Rat := if a ≤ b then a else b

/-- JobManager.calculateTargetBitrate (lines 800-809), modelled over exact
    rationals (the doubles involved are far from any rounding boundary at
    the clamp bounds used). The source fixes `durationSeconds = 60` (its
    own comment says the duration should be probed); `inputPath` is
    received but never used, and no duration parameter exists. A NaN
    `parseInt` result (which JS would propagate to the string `NaNk`) is
    modelled as `none`. This definition is the `audioBitrate` line of the
    source (line 803), hoisted out of `calculateTargetBitrate` below. -/
def presetAudioKbps (preset : CompressionPreset) : Option Int :=
  match preset.audio with
  | some a => parseIntJS (String.mk (replaceFirstK a.bitrate.toList))
  | none => some 128

/-- Body of calculateTargetBitrate after the audio bitrate line (hoisted
    above as `presetAudioKbps`). -/
def calculateTargetBitrate (targetSizeBytes : Rat) (inputPath : String)
    (preset : CompressionPreset) : Option String :=
  let durationSeconds : Rat := 60
  (presetAudioKbps preset).map (fun (ab : Int) =>
    let targetBitsPerSecond : Rat := targetSizeBytes * 8 / durationSeconds
    let videoBitrate : Rat := jsMax 300 (jsMin 8000 (targetBitsPerSecond - (ab : Rat)))
    toString (jsRound videoBitrate) ++ "k")

/-- Single-quote character (codepoint 39), used inside the scale filter
    string. -/
def sqc : Char := Char.ofNat 39

/-- Single-quote singleton string. -/
def sqs : String := String.mk [sqc]

/-- JobManager.buildScaleFilter (lines 811-825), with JS truthiness of the
    optional bounds. -/
def buildScaleFilter (maxWidth maxHeight : Option Nat) : String :=
  if !truthyNat maxWidth && !truthyNat maxHeight then "scale=-1:-1"
  else if truthyNat maxWidth && truthyNat maxHeight then
    "scale=" ++ sqs ++ "min(" ++ toString (maxWidth.getD 0) ++ ",iw)" ++ sqs ++ ":" ++
      sqs ++ "min(" ++ toString (maxHeight.getD 0) ++ ",ih)" ++ sqs ++
      ":force_original_aspect_ratio=decrease"
  else if truthyNat maxWidth then "scale=" ++ toString (maxWidth.getD 0) ++ ":-1"
  else "scale=-1:" ++ toString (maxHeight.getD 0)

/-- Spread merge `\x7b ...preset, ...config.customSettings \x7d` of
    buildFfmpegArgs (lines 707-709): a SHALLOW merge in which every
    own property of the overrides replaces the whole corresponding
    top-level preset property. -/
def effectivePreset (preset : CompressionPreset)
    (customSettings : Option PresetOverride) : CompressionPreset :=
  match customSettings with
  | none => preset
  | some cs =>
    { id := cs.id.getD preset.id,
      name := cs.name.getD preset.name,
      video := match cs.video with | some v => some v | none => preset.video,
      audio := match cs.audio with | some a => some a | none => preset.audio,
      removeVideo := match cs.removeVideo with | some b => some b | none => preset.removeVideo,
      removeAudio := match cs.removeAudio with | some b => some b | none => preset.removeAudio }

/-- JobManager.buildTwoPassArgs (lines 777-798), first pass only, posix
    null sink (`NUL` on win32 is not modelled). The `preset.video!`
    non-null assertion is guaranteed by the two-pass guard of the caller;
    the fallback string is unreachable under that guard. A NaN planned
    bitrate prints as `NaNk` in JS, which is what `getD` supplies. -/
def buildTwoPassArgs (config : JobConfig) (preset : CompressionPreset) : List String :=
  let targetBitrate :=
    (calculateTargetBitrate ((config.targetSize.getD 0 : Nat) : Rat) config.inputPath preset).getD "NaNk"
  [ "-i", config.inputPath,
    "-c:v", (match preset.video with | some v => v.codec | none => "undefined"),
    "-b:v", targetBitrate,
    "-pass", "1",
    "-an",
    "-f", "mp4",
    "/dev/null"]

/-- JobManager.buildFfmpegArgs (lines 702-775): merge the overrides onto
    the preset, branch to two-pass mode when a truthy target size meets a
    two-pass video preset, otherwise emit video, audio and output
    arguments with the JS truthiness checks of the source. -/
def buildFfmpegArgs (config : JobConfig) : List String :=
  let preset := config.preset
  let ep := effectivePreset preset config.customSettings
  if truthyNat config.targetSize = true ∧
     (match ep.video with | some v => v.twoPass | none => false) = true then
    buildTwoPassArgs config ep
  else
    let videoArgs : List String :=
      match ep.video, truthyBool ep.removeVideo with
      | some v, false =>
          [ "-c:v", v.codec] ++
          (match v.crf with | some c => [ "-crf", toString c] | none => []) ++
          (if truthyStr v.bitrate then [ "-b:v", v.bitrate.getD ""] else []) ++
          [ "-preset", v.preset] ++
          (if truthyStr v.profile then [ "-profile:v", v.profile.getD ""] else []) ++
          (if truthyStr v.level then [ "-level", v.level.getD ""] else []) ++
          [ "-pix_fmt", v.pixelFormat] ++
          (if truthyNat v.maxWidth || truthyNat v.maxHeight then
             [ "-vf", buildScaleFilter v.maxWidth v.maxHeight] else []) ++
          (if truthyNat v.fps then [ "-r", toString (v.fps.getD 0)] else [])
      | _, rv => if rv then [ "-vn"] else []
    let audioArgs : List String :=
      match ep.audio, truthyBool ep.removeAudio with
      | some a, false =>
          [ "-c:a", a.codec, "-b:a", a.bitrate] ++
          (if truthyNat a.sampleRate then [ "-ar", toString (a.sampleRate.getD 0)] else []) ++
          (if truthyNat a.channels then [ "-ac", toString (a.channels.getD 0)] else [])
      | _, ra => if ra then [ "-an"] else []
    [ "-i", config.inputPath] ++ videoArgs ++ audioArgs ++ [ "-y", config.outputPath]

/-- First DEFAULT_PRESETS entry (types.ts lines 257-275). -/
def githubPrPreset : CompressionPreset :=
  { id := "github-pr", name := "GitHub PR (標準)",
    video := some
      { codec := "libx264", crf := some 23, bitrate := none, preset := "veryfast",
        profile := some "high", level := none, pixelFormat := "yuv420p",
        maxWidth := some 1920, maxHeight := some 1080, fps := some 30, twoPass := false },
    audio := some { codec := "aac", bitrate := "128k", sampleRate := none, channels := none },
    removeVideo := none, removeAudio := none }

/-- Target-size DEFAULT_PRESETS entry (types.ts lines 320-334). -/
def targetSizePreset : CompressionPreset :=
  { id := "target-size", name := "目標サイズ",
    video := some
      { codec := "libx264", crf := none, bitrate := none, preset := "veryfast",
        profile := some "high", level := none, pixelFormat := "yuv420p",
        maxWidth := none, maxHeight := none, fps := none, twoPass := true },
    audio := some { codec := "aac", bitrate := "128k", sampleRate := none, channels := none },
    removeVideo := none, removeAudio := none }

/-- Bitrate formula written from the specification words (spec section
    4.5): `clamp(targetSizeBits / durationSeconds - audioBitrateKbps,
    MIN_KBPS, MAX_KBPS)` with the supplied duration; stated for comparison
    with the source-derived `calculateTargetBitrate`. -/
def specTargetVideoBitrateKbps (targetSizeBits durationSeconds audioBitrateKbps
    minKbps maxKbps : Rat) : Rat :=
  max minKbps (min maxKbps (targetSizeBits / durationSeconds - audioBitrateKbps))

/-- Video object of the C8 override: a submission override that sets the
    video property but leaves its nested `crf` unset. -/
def c8OverrideVideo : VideoSettings :=
  { codec := "libx264", crf := none, bitrate := some "1000k", preset := "veryfast",
    profile := none, level := none, pixelFormat := "yuv420p",
    maxWidth := none, maxHeight := none, fps := none, twoPass := false }

/-- Partial override supplying only a video object. -/
def c8Override : PresetOverride :=
  { id := none, name := none, video := some c8OverrideVideo,
    audio := none, removeVideo := none, removeAudio := none }

/-- Configuration submitting the github-pr preset with the C8 override. -/
def c8Config : JobConfig :=
  { inputPath := "in.mp4", outputPath := "out.mp4", preset := githubPrPreset,
    targetSize := none, customSettings := some c8Override }

/-- Configuration submitting the github-pr preset without overrides. -/
def c8ConfigPlain : JobConfig :=
  { inputPath := "in.mp4", outputPath := "out.mp4", preset := githubPrPreset,
    targetSize := none, customSettings := none }

/-- Coordinator invariant: registry keys and run-set are duplicate-free,
    the run-set length is bounded by the configured maximum, the run-set
    is exactly the ids whose job is running or paused, and the ghost
    admission log followed by the pending queue is a submission-ordered
    subsequence of the ghost submission log. -/
structure Inv (K : Nat) (s : JM) : Prop where
  nodupKeys : (s.activeJobs.map Prod.fst).Nodup
  nodupRun : s.runningJobs.Nodup
  runLe : s.runningJobs.length ≤ K
  runJobs : ∀ id ∈ s.runningJobs, ∃ j, mapGet s.activeJobs id = some j ∧
    (j.status = JobStatus.running ∨ j.status = JobStatus.paused)
  liveIn : ∀ id j, mapGet s.activeJobs id = some j →
    (j.status = JobStatus.running ∨ j.status = JobStatus.paused) → id ∈ s.runningJobs
  fifo : (s.admittedLog ++ s.jobQueue).Sublist s.submittedLog
  subNodup : s.submittedLog.Nodup
  subKeys : ∀ id ∈ s.submittedLog, id ∈ s.activeJobs.map Prod.fst

def cfgA : JobConfig :=
  { inputPath := "in.mp4", outputPath := "out.mp4", preset := githubPrPreset,
    targetSize := none, customSettings := none }

/-- Completed job used by the cancel-on-terminal scenario. -/
def doneJobA : ActiveJob :=
  { id := "a", config := cfgA, spawned := true, procClosed := true,
    status := JobStatus.completed, progress := 100, startTime := some 5,
    error := none, outputSize := some 400, stderrBuf := "" }

def c3s0 : JM :=
  { activeJobs := [("a", doneJobA)], jobQueue := [], runningJobs := [],
    history := [], emitted := [], signals := [], submittedLog := ["a"],
    admittedLog := ["a"] }

/-- Running job owning a live process. -/
def runJobB : ActiveJob :=
  { id := "b", config := cfgA, spawned := true, procClosed := false,
    status := JobStatus.running, progress := 0, startTime := some 3,
    error := none, outputSize := none, stderrBuf := "" }

/-- Waiting job (no process yet). -/
def waitJobW : ActiveJob :=
  { id := "w", config := cfgA, spawned := false, procClosed := false,
    status := JobStatus.waiting, progress := 0, startTime := none,
    error := none, outputSize := none, stderrBuf := "" }

def c7s0 : JM :=
  { activeJobs := [("b", runJobB), ("w", waitJobW)], jobQueue := ["w"],
    runningJobs := ["b"], history := [], emitted := [], signals := [],
    submittedLog := ["b", "w"], admittedLog := ["b"] }

def c5RunJob : ActiveJob :=
  { id := "a", config := cfgA, spawned := true, procClosed := false,
    status := JobStatus.running, progress := 50, startTime := some 100,
    error := none, outputSize := none, stderrBuf := "" }

def c5s0 : JM :=
  { activeJobs := [("a", c5RunJob)], jobQueue := [], runningJobs := ["a"],
    history := [], emitted := [], signals := [], submittedLog := ["a"],
    admittedLog := ["a"] }

def c6Job : ActiveJob :=
  { id := "a", config := cfgA, spawned := true, procClosed := false,
    status := JobStatus.running, progress := 10, startTime := some 2,
    error := none, outputSize := none, stderrBuf := "frame=1 some diagnostics" }

def c6s0 : JM :=
  { activeJobs := [("a", c6Job)], jobQueue := [], runningJobs := ["a"],
    history := [], emitted := [], signals := [], submittedLog := ["a"],
    admittedLog := ["a"] }

def c9RunJob : ActiveJob :=
  { id := "r", config := cfgA, spawned := true, procClosed := false,
    status := JobStatus.running, progress := 1, startTime := some 1,
    error := none, outputSize := none, stderrBuf := "" }

def c9PausedJob : ActiveJob :=
  { id := "p", config := cfgA, spawned := true, procClosed := false,
    status := JobStatus.paused, progress := 2, startTime := some 1,
    error := none, outputSize := none, stderrBuf := "" }

def c9s0 : JM :=
  { activeJobs := [("r", c9RunJob), ("p", c9PausedJob)], jobQueue := [],
    runningJobs := ["r", "p"], history := [], emitted := [], signals := [],
    submittedLog := ["r", "p"], admittedLog := ["r", "p"] }

/-- Job whose buffer already holds one complete progress record. -/
def c10Job : ActiveJob :=
  { id := "t", config := cfgA, spawned := true, procClosed := false,
    status := JobStatus.running, progress := 0, startTime := some 0, error := none,
    outputSize := none,
    stderrBuf := "time=00:00:03.00 bitrate= 128kbits/s speed= 1.5x fps= 24 size= 1024kB " }

/-- Manager state owning that job. -/
def c10s0 : JM :=
  { activeJobs := [("t", c10Job)], jobQueue := [], runningJobs := ["t"], history := [],
    emitted := [], signals := [], submittedLog := ["t"], admittedLog := ["t"] }

/-- A later chunk carrying a second, different progress record. -/
def c10Chunk : String :=
  "time=00:09:59.99 bitrate=9000.0kbits/s speed= 0.1x fps= 240 size= 65536kB "

/-- Time groups of the first record of the buffer. -/
def c10Tg : List Char × List Char × List Char :=
  ([ '0', '0'], [ '0', '0'], [ '0', '3', '.', '0', '0'])

/-- Speed group of the first record. -/
def c10Sp : List Char := [ '1', '.', '5']

/-- Fps group of the first record. -/
def c10Fp : List Char := [ '2', '4']

/-- Bitrate group of the first record. -/
def c10Br : List Char := [ '1', '2', '8', 'k', 'b', 'i', 't', 's', '/', 's']

/-- Size group of the first record. -/
def c10Sz : List Char := [ '1', '0', '2', '4', 'k', 'B']

/-- Evaluation lemma: once the audio bitrate string parses, the planner is
    the fixed-duration clamp formula of the source. -/
theorem calculateTargetBitrate_eval (sz : Rat) (ip : String) (p : CompressionPreset)
    (ab : Int) (hab : presetAudioKbps p = some ab) :
    calculateTargetBitrate sz ip p =
      some (toString (jsRound (jsMax 300 (jsMin 8000 (sz * 8 / 60 - (ab : Rat))))) ++ "k") := by
  unfold calculateTargetBitrate
  rw [hab]
  rfl

/-- C4: the claim says the planned bitrate is computed with the supplied
    duration and that targetSize 5 MB, duration 100 s, audio 128 kbps
    yields clamp(5*8*1024/100 - 128, MIN, MAX) = 300 kbps. The source
    takes no duration at all and fixes 60 s, so on the target-size preset
    it answers 8000k where the claimed formula with the supplied duration
    yields 300; the code comment itself says the duration should be
    probed, so this is a defect of the code against the specified
    intent. -/
theorem c4_fixed_duration_divergence :
    calculateTargetBitrate ((5242880 : Nat) : Rat) "input.mp4" targetSizePreset = some "8000k" ∧
    specTargetVideoBitrateKbps (5 * 8 * 1024) 100 128 300 8000 = 300 ∧
    ("8000k" : String) ≠ "300k" := by
  refine ⟨?_, ?_, by decide⟩
  · rw [calculateTargetBitrate_eval ((5242880 : Nat) : Rat) "input.mp4" targetSizePreset
      128 (by decide)]
    have h2 : ((5242880 : Nat) : Rat) * 8 / 60 - ((128 : Int) : Rat) = 2096768 / 3 := by
      norm_num
    rw [h2]
    have h3 : jsMin 8000 ((2096768 : Rat) / 3) = 8000 := by
      simp only [jsMin]
      rw [if_pos]
      norm_num
    have h4 : jsMax (300 : Rat) 8000 = 8000 := by
      simp only [jsMax]
      rw [if_pos]
      norm_num
    have h5 : jsRound 8000 = 8000 := by
      simp only [jsRound]
      norm_num
    rw [h3, h4, h5]
    decide
  · unfold specTargetVideoBitrateKbps
    have h1 : (5 * 8 * 1024 : Rat) / 100 - 128 = 1408 / 5 := by norm_num
    rw [h1, min_eq_right (by norm_num : (1408 : Rat) / 5 ≤ 8000),
        max_eq_left (by norm_num : (1408 : Rat) / 5 ≤ 300)]

/-- C8 counterexample: the merge is shallow, not field-by-field on nested
    fields. The github-pr preset sets video.crf = 23; the override sets
    the video property without setting its nested crf; the effective
    preset then has no crf at all (the preset value 23 is lost), and the
    built argument vector drops the crf flag that the plain submission
    receives — contradicting the claim that every field not set in the
    overrides keeps the preset value. -/
theorem c8_shallow_merge_cex :
    githubPrPreset.video.map VideoSettings.crf = some (some 23) ∧
    c8Override.video.map VideoSettings.crf = some none ∧
    (effectivePreset githubPrPreset (some c8Override)).video.map VideoSettings.crf = some none ∧
    some (none : Option Nat) ≠ some (some 23) ∧
    "-crf" ∈ buildFfmpegArgs c8ConfigPlain ∧
    "-crf" ∉ buildFfmpegArgs c8Config := by
  decide

/-- C8 amended: the override is merged by a shallow spread: each top-level
    field present in the overrides replaces the whole corresponding preset
    field (so an overridden video or audio object is taken wholesale, its
    unset nested fields not filled from the preset), each absent top-level
    field keeps the preset value, and an absent override object leaves the
    preset untouched. -/
theorem c8_shallow_merge_amended (p : CompressionPreset) (cs : PresetOverride) :
    (cs.video = none → (effectivePreset p (some cs)).video = p.video) ∧
    (∀ v, cs.video = some v → (effectivePreset p (some cs)).video = some v) ∧
    (cs.audio = none → (effectivePreset p (some cs)).audio = p.audio) ∧
    (∀ a, cs.audio = some a → (effectivePreset p (some cs)).audio = some a) ∧
    (cs.removeVideo = none → (effectivePreset p (some cs)).removeVideo = p.removeVideo) ∧
    (∀ b, cs.removeVideo = some b → (effectivePreset p (some cs)).removeVideo = some b) ∧
    (cs.removeAudio = none → (effectivePreset p (some cs)).removeAudio = p.removeAudio) ∧
    (∀ b, cs.removeAudio = some b → (effectivePreset p (some cs)).removeAudio = some b) ∧
    effectivePreset p none = p := by
  refine ⟨?_, ?_, ?_, ?_, ?_, ?_, ?_, ?_, rfl⟩ <;>
    first
      | (intro h; simp [effectivePreset, h])
      | (intro x h; simp [effectivePreset, h])

/-- C8 amended witness at the concrete github-pr preset and override: the
    overridden video object is taken wholesale and the absent audio
    override keeps the preset audio. -/
theorem c8_shallow_merge_amended_witness :
    (effectivePreset githubPrPreset (some c8Override)).video = some c8OverrideVideo ∧
    (effectivePreset githubPrPreset (some c8Override)).audio = githubPrPreset.audio := by
  exact ⟨(c8_shallow_merge_amended githubPrPreset c8Override).2.1 c8OverrideVideo rfl,
         (c8_shallow_merge_amended githubPrPreset c8Override).2.2.1 rfl⟩

/-
Association-list lemmas for the registry map.
-/

theorem mapGet_set_self {α : Type} (m : List (String × α)) (k : String) (v : α) :
    mapGet (mapSet m k v) k = some v := by
  induction m with
  | nil => simp [mapGet, mapSet]
  | cons p rest ih =>
    obtain ⟨k2, v2⟩ := p
    by_cases h : k2 = k
    · simp [mapSet, mapGet, h]
    · simp [mapSet, mapGet, h, ih]

theorem mapGet_set_ne {α : Type} (m : List (String × α)) (k k2 : String) (v : α)
    (h : k2 ≠ k) : mapGet (mapSet m k v) k2 = mapGet m k2 := by
  induction m with
  | nil =>
    simp only [mapSet, mapGet]
    rw [if_neg (fun he : k = k2 => h he.symm)]
  | cons p rest ih =>
    obtain ⟨k3, v3⟩ := p
    simp only [mapSet]
    by_cases h3 : k3 = k
    · rw [if_pos h3]
      simp only [mapGet]
      rw [if_neg (fun he : k3 = k2 => h (he.symm.trans h3)),
          if_neg (fun he : k3 = k2 => h (he.symm.trans h3))]
    · rw [if_neg h3]
      simp only [mapGet]
      by_cases h2 : k3 = k2
      · rw [if_pos h2, if_pos h2]
      · rw [if_neg h2, if_neg h2, ih]

theorem mapGet_eq_none_iff {α : Type} (m : List (String × α)) (k : String) :
    mapGet m k = none ↔ k ∉ m.map Prod.fst := by
  induction m with
  | nil => simp [mapGet]
  | cons p rest ih =>
    obtain ⟨k2, v2⟩ := p
    by_cases h : k2 = k
    · simp [mapGet, h]
    · simp [mapGet, h, ih, Ne.symm h]

theorem mapGet_some_mem {α : Type} (m : List (String × α)) (k : String) (v : α)
    (h : mapGet m k = some v) : (k, v) ∈ m := by
  induction m with
  | nil => simp [mapGet] at h
  | cons p rest ih =>
    obtain ⟨k2, v2⟩ := p
    by_cases h2 : k2 = k
    · subst h2
      simp [mapGet] at h
      simp [h]
    · simp [mapGet, h2] at h
      exact List.mem_cons_of_mem _ (ih h)

theorem mapGet_of_mem_nodup {α : Type} (m : List (String × α)) (k : String) (v : α)
    (hnd : (m.map Prod.fst).Nodup) (h : (k, v) ∈ m) : mapGet m k = some v := by
  induction m with
  | nil => simp at h
  | cons p rest ih =>
    obtain ⟨k2, v2⟩ := p
    simp only [List.map_cons, List.nodup_cons] at hnd
    rcases List.mem_cons.mp h with h1 | h1
    · have hk : k = k2 := congrArg Prod.fst h1
      have hv : v = v2 := congrArg Prod.snd h1
      subst hk
      subst hv
      simp [mapGet]
    · have hkne : k2 ≠ k := by
        intro he
        subst he
        exact hnd.1 (List.mem_map_of_mem Prod.fst h1)
      simp only [mapGet]
      rw [if_neg hkne]
      exact ih hnd.2 h1

theorem mapSet_map_fst_of_get_some {α : Type} (m : List (String × α)) (k : String)
    (v w : α) (h : mapGet m k = some w) :
    (mapSet m k v).map Prod.fst = m.map Prod.fst := by
  induction m with
  | nil => simp [mapGet] at h
  | cons p rest ih =>
    obtain ⟨k2, v2⟩ := p
    by_cases h2 : k2 = k
    · simp [mapSet, h2]
    · simp [mapGet, h2] at h
      simp [mapSet, h2, ih h]

theorem mapSet_map_fst_of_get_none {α : Type} (m : List (String × α)) (k : String)
    (v : α) (h : mapGet m k = none) :
    (mapSet m k v).map Prod.fst = m.map Prod.fst ++ [k] := by
  induction m with
  | nil => simp [mapSet]
  | cons p rest ih =>
    obtain ⟨k2, v2⟩ := p
    by_cases h2 : k2 = k
    · simp [mapGet, h2] at h
    · simp [mapGet, h2] at h
      simp [mapSet, h2, ih h]

theorem nodup_append_single {α : Type} (l : List α) (a : α) (hnd : l.Nodup)
    (ha : a ∉ l) : (l ++ [a]).Nodup := by
  induction l with
  | nil => simp
  | cons b rest ih =>
    simp only [List.mem_cons, not_or] at ha
    simp only [List.nodup_cons] at hnd
    simp only [List.cons_append, List.nodup_cons]
    refine ⟨?_, ih hnd.2 ha.2⟩
    simp only [List.mem_append, List.mem_singleton]
    rintro (hb | hb)
    · exact hnd.1 hb
    · exact ha.1 hb.symm

/-
Inductive invariant of the coordinator, strong enough for the concurrency
bound and the FIFO property.
-/

theorem inv_init (K : Nat) : Inv K initJM := by
  constructor <;> simp [initJM, mapGet]

/-- Dropping the queue head preserves the invariant (the skip branch of
    the admission loop). -/
theorem inv_queue_tail {K : Nat} {s : JM} (h : Inv K s) (jobId : String)
    (rest : List String) (hq : s.jobQueue = jobId :: rest) :
    Inv K { s with jobQueue := rest } := by
  refine ⟨h.nodupKeys, h.nodupRun, h.runLe, h.runJobs, h.liveIn, ?_, h.subNodup, h.subKeys⟩
  have h1 : (s.admittedLog ++ rest).Sublist (s.admittedLog ++ (jobId :: rest)) :=
    List.Sublist.append_left (List.sublist_cons_self _ _) _
  exact h1.trans (hq ▸ h.fifo)

/-- Admitting the queue head preserves the invariant. -/
theorem inv_admitJob {K : Nat} {s : JM} (now : Nat) (h : Inv K s) (jobId : String)
    (rest : List String) (job : ActiveJob) (hq : s.jobQueue = jobId :: rest)
    (hget : mapGet s.activeJobs jobId = some job)
    (hw : job.status = JobStatus.waiting)
    (hlt : s.runningJobs.length < K) :
    Inv K (admitJob now { s with jobQueue := rest } jobId job) := by
  have hnotrun : jobId ∉ s.runningJobs := by
    intro hmem
    obtain ⟨j, hj, hst⟩ := h.runJobs jobId hmem
    rw [hget] at hj
    cases hj
    rcases hst with hst | hst <;> rw [hw] at hst <;> cases hst
  refine ⟨?_, ?_, ?_, ?_, ?_, ?_, h.subNodup, ?_⟩
  · simpa [admitJob, mapSet_map_fst_of_get_some _ _ _ _ hget] using h.nodupKeys
  · simpa [admitJob] using nodup_append_single _ _ h.nodupRun hnotrun
  · simpa [admitJob] using hlt
  · intro id hid
    simp only [admitJob, List.mem_append, List.mem_singleton] at hid
    rcases hid with hid | hid
    · obtain ⟨j, hj, hst⟩ := h.runJobs id hid
      have hne : id ≠ jobId := fun he => hnotrun (he ▸ hid)
      refine ⟨j, ?_, hst⟩
      simpa [admitJob, mapGet_set_ne _ _ _ _ hne] using hj
    · subst hid
      refine ⟨{ job with status := JobStatus.running, startTime := some now, spawned := true },
        ?_, Or.inl rfl⟩
      simp [admitJob, mapGet_set_self]
  · intro id j hj hst
    simp only [admitJob] at hj ⊢
    by_cases he : id = jobId
    · subst he
      simp [List.mem_append]
    · rw [mapGet_set_ne _ _ _ _ he] at hj
      simp only [List.mem_append, List.mem_singleton]
      exact Or.inl (h.liveIn id j hj hst)
  · simp only [admitJob]
    have he : (s.admittedLog ++ [jobId]) ++ rest = s.admittedLog ++ (jobId :: rest) := by
      rw [List.append_assoc]
      rfl
    rw [he]
    exact hq ▸ h.fifo
  · intro id hid
    simp only [admitJob]
    rw [mapSet_map_fst_of_get_some _ _ _ _ hget]
    exact h.subKeys id hid

/-- Unfolding: the loop stops when the run-set is full. -/
theorem processQueueAux_stop (K now n : Nat) (s : JM)
    (h : ¬ s.runningJobs.length < K) : processQueueAux K now (n + 1) s = s := by
  conv_lhs => rw [processQueueAux]
  rw [if_neg h]

/-- Unfolding: the loop stops on an empty queue. -/
theorem processQueueAux_nil (K now n : Nat) (s : JM)
    (hq : s.jobQueue = []) : processQueueAux K now (n + 1) s = s := by
  conv_lhs => rw [processQueueAux]
  rw [hq]
  split <;> rfl

/-- Unfolding: one skipping iteration (stale queue id). -/
theorem processQueueAux_cons_none (K now n : Nat) (s : JM) (jobId : String)
    (rest : List String) (hq : s.jobQueue = jobId :: rest)
    (hlt : s.runningJobs.length < K)
    (hget : mapGet s.activeJobs jobId = none) :
    processQueueAux K now (n + 1) s =
      processQueueAux K now n { s with jobQueue := rest } := by
  conv_lhs => rw [processQueueAux]
  rw [if_pos hlt, hq]
  simp only [hget]

/-- Unfolding: one admitting iteration (waiting queue head). -/
theorem processQueueAux_cons_admitJob (K now n : Nat) (s : JM) (jobId : String)
    (rest : List String) (job : ActiveJob) (hq : s.jobQueue = jobId :: rest)
    (hlt : s.runningJobs.length < K)
    (hget : mapGet s.activeJobs jobId = some job)
    (hw : job.status = JobStatus.waiting) :
    processQueueAux K now (n + 1) s =
      processQueueAux K now n (admitJob now { s with jobQueue := rest } jobId job) := by
  conv_lhs => rw [processQueueAux]
  rw [if_pos hlt, hq]
  simp only [hget, if_pos hw]

/-- Unfolding: one skipping iteration (non-waiting queue head). -/
theorem processQueueAux_cons_skip (K now n : Nat) (s : JM) (jobId : String)
    (rest : List String) (job : ActiveJob) (hq : s.jobQueue = jobId :: rest)
    (hlt : s.runningJobs.length < K)
    (hget : mapGet s.activeJobs jobId = some job)
    (hw : ¬ job.status = JobStatus.waiting) :
    processQueueAux K now (n + 1) s =
      processQueueAux K now n { s with jobQueue := rest } := by
  conv_lhs => rw [processQueueAux]
  rw [if_pos hlt, hq]
  simp only [hget, if_neg hw]

/-- The admission loop preserves the invariant. -/
theorem processQueueAux_inv (K now : Nat) (fuel : Nat) :
    ∀ (s : JM), Inv K s → Inv K (processQueueAux K now fuel s) := by
  induction fuel with
  | zero => intro s h; exact h
  | succ n ih =>
    intro s h
    by_cases hlt : s.runningJobs.length < K
    · cases hq : s.jobQueue with
      | nil => rw [processQueueAux_nil K now n s hq]; exact h
      | cons jobId rest =>
        cases hget : mapGet s.activeJobs jobId with
        | none =>
          rw [processQueueAux_cons_none K now n s jobId rest hq hlt hget]
          exact ih _ (inv_queue_tail h jobId rest hq)
        | some job =>
          by_cases hw : job.status = JobStatus.waiting
          · rw [processQueueAux_cons_admitJob K now n s jobId rest job hq hlt hget hw]
            exact ih _ (inv_admitJob now h jobId rest job hq hget hw hlt)
          · rw [processQueueAux_cons_skip K now n s jobId rest job hq hlt hget hw]
            exact ih _ (inv_queue_tail h jobId rest hq)
    · rw [processQueueAux_stop K now n s hlt]
      exact h

/-- processQueue preserves the invariant. -/
theorem processQueue_inv (K now : Nat) (s : JM) (h : Inv K s) :
    Inv K (processQueue K now s) :=
  processQueueAux_inv K now _ s h

/-
Unfolding equations for each operation, used both by the invariance proofs
and by the per-claim theorems.
-/

theorem submitJob_eq (K now : Nat) (s : JM) (jobId : String) (cfg : JobConfig) :
    submitJob K now s jobId cfg true = Except.ok (processQueue K now
      { s with
          activeJobs := mapSet s.activeJobs jobId (freshJob jobId cfg),
          jobQueue := s.jobQueue ++ [jobId],
          submittedLog := s.submittedLog ++ [jobId] }) := rfl

theorem cancelJob_eq (K now : Nat) (s : JM) (jobId : String) (job : ActiveJob)
    (hget : mapGet s.activeJobs jobId = some job) :
    cancelJob K now s jobId = Except.ok (processQueue K now
      { s with
          signals := if job.spawned then s.signals ++ [(jobId, "SIGKILL")] else s.signals,
          activeJobs := mapSet s.activeJobs jobId { job with status := JobStatus.cancelled },
          jobQueue := s.jobQueue.erase jobId,
          runningJobs := s.runningJobs.erase jobId,
          emitted := s.emitted ++
            [{ jobId := jobId, success := false, error := some "Job cancelled" }] }) := by
  unfold cancelJob
  simp only [hget]

theorem cancelJob_eq_none (K now : Nat) (s : JM) (jobId : String)
    (hget : mapGet s.activeJobs jobId = none) :
    cancelJob K now s jobId = Except.error "Job not found" := by
  unfold cancelJob
  simp only [hget]

theorem pauseJob_eq_pos (s : JM) (jobId : String) (job : ActiveJob)
    (hget : mapGet s.activeJobs jobId = some job)
    (hc : job.status = JobStatus.running ∧ job.spawned = true) :
    pauseJob s jobId = Except.ok
      { s with
          signals := s.signals ++ [(jobId, "SIGSTOP")],
          activeJobs := mapSet s.activeJobs jobId { job with status := JobStatus.paused } } := by
  unfold pauseJob
  simp only [hget]
  rw [if_pos hc]

theorem pauseJob_eq_neg (s : JM) (jobId : String) (job : ActiveJob)
    (hget : mapGet s.activeJobs jobId = some job)
    (hc : ¬(job.status = JobStatus.running ∧ job.spawned = true)) :
    pauseJob s jobId = Except.ok s := by
  unfold pauseJob
  simp only [hget]
  rw [if_neg hc]

theorem pauseJob_eq_none (s : JM) (jobId : String)
    (hget : mapGet s.activeJobs jobId = none) :
    pauseJob s jobId = Except.error "Job not found" := by
  unfold pauseJob
  simp only [hget]

theorem resumeJob_eq_pos (s : JM) (jobId : String) (job : ActiveJob)
    (hget : mapGet s.activeJobs jobId = some job)
    (hc : job.status = JobStatus.paused ∧ job.spawned = true) :
    resumeJob s jobId = Except.ok
      { s with
          signals := s.signals ++ [(jobId, "SIGCONT")],
          activeJobs := mapSet s.activeJobs jobId { job with status := JobStatus.running } } := by
  unfold resumeJob
  simp only [hget]
  rw [if_pos hc]

theorem resumeJob_eq_neg (s : JM) (jobId : String) (job : ActiveJob)
    (hget : mapGet s.activeJobs jobId = some job)
    (hc : ¬(job.status = JobStatus.paused ∧ job.spawned = true)) :
    resumeJob s jobId = Except.ok s := by
  unfold resumeJob
  simp only [hget]
  rw [if_neg hc]

theorem resumeJob_eq_none (s : JM) (jobId : String)
    (hget : mapGet s.activeJobs jobId = none) :
    resumeJob s jobId = Except.error "Job not found" := by
  unfold resumeJob
  simp only [hget]

theorem closeJob_eq_success (K now : Nat) (s : JM) (jobId : String)
    (iSz : Nat) (oEx : Bool) (oSz : Nat) (job : ActiveJob)
    (hget : mapGet s.activeJobs jobId = some job) :
    closeJob K now s jobId (some 0) iSz oEx oSz = processQueue K now
      { s with
          runningJobs := s.runningJobs.filter (fun i => decide (i ≠ jobId)),
          history := s.history ++ [closeSuccessEntry job iSz oEx oSz now],
          emitted := s.emitted ++ [{ jobId := jobId, success := true, error := none }],
          activeJobs := mapSet s.activeJobs jobId (closeSuccessJob job oEx oSz) } := by
  unfold closeJob
  simp only [hget]
  rw [if_pos trivial]

theorem closeJob_eq_failure (K now : Nat) (s : JM) (jobId : String) (code : Option Int)
    (iSz : Nat) (oEx : Bool) (oSz : Nat) (job : ActiveJob)
    (hget : mapGet s.activeJobs jobId = some job)
    (hcode : ¬ code = some 0) :
    closeJob K now s jobId code iSz oEx oSz = processQueue K now
      { s with
          runningJobs := s.runningJobs.filter (fun i => decide (i ≠ jobId)),
          history := s.history ++ [closeFailEntry job code iSz now],
          emitted := s.emitted ++ [{ jobId := jobId, success := false, error := some (failMessage code job.stderrBuf) }],
          activeJobs := mapSet s.activeJobs jobId (closeFailJob job code) } := by
  unfold closeJob
  simp only [hget]
  rw [if_neg hcode]

theorem procErrJob_eq (K now : Nat) (s : JM) (jobId msg : String) (job : ActiveJob)
    (hget : mapGet s.activeJobs jobId = some job) :
    procErrJob K now s jobId msg = processQueue K now
      { s with
          runningJobs := s.runningJobs.filter (fun i => decide (i ≠ jobId)),
          activeJobs := mapSet s.activeJobs jobId
            { job with status := JobStatus.failed, error := some ("FFmpeg process error: " ++ msg) },
          emitted := s.emitted ++ [{ jobId := jobId, success := false, error := some ("FFmpeg process error: " ++ msg) }] } := by
  unfold procErrJob
  simp only [hget]

theorem stderrDataJob_eq (s : JM) (jobId chunk : String) (job : ActiveJob)
    (hget : mapGet s.activeJobs jobId = some job) :
    stderrDataJob s jobId chunk =
      { s with activeJobs := mapSet s.activeJobs jobId (appendChunk job chunk) } := by
  unfold stderrDataJob
  simp only [hget]

theorem step_submit_eq (K : Nat) (s s2 : JM) (jobId : String) (cfg : JobConfig)
    (inputExists : Bool) (now : Nat)
    (hget : mapGet s.activeJobs jobId = none)
    (hok : submitJob K now s jobId cfg inputExists = Except.ok s2) :
    step K s (Ev.submit jobId cfg inputExists now) = s2 := by
  simp only [step, hget, hok]

theorem step_cancel_eq (K : Nat) (s s2 : JM) (jobId : String) (now : Nat)
    (hok : cancelJob K now s jobId = Except.ok s2) :
    step K s (Ev.cancel jobId now) = s2 := by
  simp only [step, hok]

theorem step_pause_eq (K : Nat) (s s2 : JM) (jobId : String)
    (hok : pauseJob s jobId = Except.ok s2) :
    step K s (Ev.pause jobId) = s2 := by
  simp only [step, hok]

theorem step_resume_eq (K : Nat) (s s2 : JM) (jobId : String)
    (hok : resumeJob s jobId = Except.ok s2) :
    step K s (Ev.resume jobId) = s2 := by
  simp only [step, hok]

theorem step_close_eq (K : Nat) (s : JM) (jobId : String) (code : Option Int)
    (iSz : Nat) (oEx : Bool) (oSz : Nat) (now : Nat) (job : ActiveJob)
    (hget : mapGet s.activeJobs jobId = some job)
    (hsp : job.spawned = true) (hcl : job.procClosed = false) :
    step K s (Ev.close jobId code iSz oEx oSz now) =
      closeJob K now s jobId code iSz oEx oSz := by
  simp only [step, hget]
  rw [if_pos ⟨hsp, hcl⟩]

theorem step_procErr_eq (K : Nat) (s : JM) (jobId msg : String) (now : Nat)
    (job : ActiveJob) (hget : mapGet s.activeJobs jobId = some job)
    (hsp : job.spawned = true) (hcl : job.procClosed = false) :
    step K s (Ev.procErr jobId msg now) = procErrJob K now s jobId msg := by
  simp only [step, hget]
  rw [if_pos ⟨hsp, hcl⟩]

theorem step_stderr_eq (K : Nat) (s : JM) (jobId chunk : String)
    (job : ActiveJob) (hget : mapGet s.activeJobs jobId = some job)
    (hsp : job.spawned = true) (hcl : job.procClosed = false) :
    step K s (Ev.stderrData jobId chunk) = stderrDataJob s jobId chunk := by
  simp only [step, hget]
  rw [if_pos ⟨hsp, hcl⟩]

/-- Submission preserves the invariant. -/
theorem submitJob_inv {K now : Nat} {s s2 : JM} (h : Inv K s) (jobId : String)
    (cfg : JobConfig) (inputExists : Bool)
    (hget : mapGet s.activeJobs jobId = none)
    (hok : submitJob K now s jobId cfg inputExists = Except.ok s2) :
    Inv K s2 := by
  cases inputExists with
  | false => simp [submitJob] at hok
  | true =>
    simp only [submitJob, if_true, Except.ok.injEq] at hok
    rw [← hok]
    apply processQueue_inv
    have hnotkey : jobId ∉ s.activeJobs.map Prod.fst := (mapGet_eq_none_iff _ _).mp hget
    have hnotsub : jobId ∉ s.submittedLog := fun hc => hnotkey (h.subKeys jobId hc)
    refine ⟨?_, h.nodupRun, h.runLe, ?_, ?_, ?_, ?_, ?_⟩
    · rw [mapSet_map_fst_of_get_none _ _ _ hget]
      exact nodup_append_single _ _ h.nodupKeys hnotkey
    · intro id hid
      have hne : id ≠ jobId := by
        intro he
        subst he
        obtain ⟨j, hj, _⟩ := h.runJobs id hid
        rw [hget] at hj
        cases hj
      obtain ⟨j, hj, hst⟩ := h.runJobs id hid
      exact ⟨j, by rw [mapGet_set_ne _ _ _ _ hne]; exact hj, hst⟩
    · intro id j hj hst
      by_cases hne : id = jobId
      · subst hne
        rw [mapGet_set_self] at hj
        cases hj
        rcases hst with hst | hst <;> exact JobStatus.noConfusion hst
      · rw [mapGet_set_ne _ _ _ _ hne] at hj
        exact h.liveIn id j hj hst
    · have hh := h.fifo.append (List.Sublist.refl [jobId])
      simpa [List.append_assoc] using hh
    · exact nodup_append_single _ _ h.subNodup hnotsub
    · intro id hid
      rw [mapSet_map_fst_of_get_none _ _ _ hget]
      rcases List.mem_append.mp hid with hid | hid
      · exact List.mem_append_left _ (h.subKeys id hid)
      · exact List.mem_append_right _ hid

/-- Cancellation preserves the invariant. -/
theorem cancelJob_inv {K now : Nat} {s s2 : JM} (h : Inv K s) (jobId : String)
    (hok : cancelJob K now s jobId = Except.ok s2) : Inv K s2 := by
  unfold cancelJob at hok
  cases hget : mapGet s.activeJobs jobId with
  | none => rw [hget] at hok; cases hok
  | some job =>
    rw [hget] at hok
    simp only [Except.ok.injEq] at hok
    rw [← hok]
    apply processQueue_inv
    refine ⟨?_, h.nodupRun.erase jobId, ?_, ?_, ?_, ?_, h.subNodup, ?_⟩
    · rw [mapSet_map_fst_of_get_some _ _ _ _ hget]
      exact h.nodupKeys
    · exact (List.erase_sublist _ _).length_le.trans h.runLe
    · intro id hid
      have hne : id ≠ jobId := (h.nodupRun.mem_erase_iff.mp hid).1
      obtain ⟨j, hj, hst⟩ := h.runJobs id (List.mem_of_mem_erase hid)
      exact ⟨j, by rw [mapGet_set_ne _ _ _ _ hne]; exact hj, hst⟩
    · intro id j hj hst
      by_cases he : id = jobId
      · subst he
        rw [mapGet_set_self] at hj
        cases hj
        rcases hst with hst | hst <;> exact JobStatus.noConfusion hst
      · rw [mapGet_set_ne _ _ _ _ he] at hj
        exact h.nodupRun.mem_erase_iff.mpr ⟨he, h.liveIn id j hj hst⟩
    · exact (List.Sublist.append_left (List.erase_sublist _ _) _).trans h.fifo
    · intro id hid
      rw [mapSet_map_fst_of_get_some _ _ _ _ hget]
      exact h.subKeys id hid

/-- Pausing preserves the invariant. -/
theorem pauseJob_inv {K : Nat} {s s2 : JM} (h : Inv K s) (jobId : String)
    (hok : pauseJob s jobId = Except.ok s2) : Inv K s2 := by
  cases hget : mapGet s.activeJobs jobId with
  | none => rw [pauseJob_eq_none s jobId hget] at hok; cases hok
  | some job =>
    by_cases hc : job.status = JobStatus.running ∧ job.spawned = true
    · rw [pauseJob_eq_pos s jobId job hget hc] at hok
      simp only [Except.ok.injEq] at hok
      rw [← hok]
      have hmem : jobId ∈ s.runningJobs := h.liveIn jobId job hget (Or.inl hc.1)
      refine ⟨?_, h.nodupRun, h.runLe, ?_, ?_, h.fifo, h.subNodup, ?_⟩
      · rw [mapSet_map_fst_of_get_some _ _ _ _ hget]
        exact h.nodupKeys
      · intro id hid
        by_cases he : id = jobId
        · subst he
          exact ⟨_, mapGet_set_self _ _ _, Or.inr rfl⟩
        · obtain ⟨j, hj, hst⟩ := h.runJobs id hid
          exact ⟨j, by rw [mapGet_set_ne _ _ _ _ he]; exact hj, hst⟩
      · intro id j hj hst
        by_cases he : id = jobId
        · subst he
          exact hmem
        · rw [mapGet_set_ne _ _ _ _ he] at hj
          exact h.liveIn id j hj hst
      · intro id hid
        rw [mapSet_map_fst_of_get_some _ _ _ _ hget]
        exact h.subKeys id hid
    · rw [pauseJob_eq_neg s jobId job hget hc] at hok
      simp only [Except.ok.injEq] at hok
      rw [← hok]
      exact h

/-- Resuming preserves the invariant. -/
theorem resumeJob_inv {K : Nat} {s s2 : JM} (h : Inv K s) (jobId : String)
    (hok : resumeJob s jobId = Except.ok s2) : Inv K s2 := by
  cases hget : mapGet s.activeJobs jobId with
  | none => rw [resumeJob_eq_none s jobId hget] at hok; cases hok
  | some job =>
    by_cases hc : job.status = JobStatus.paused ∧ job.spawned = true
    · rw [resumeJob_eq_pos s jobId job hget hc] at hok
      simp only [Except.ok.injEq] at hok
      rw [← hok]
      have hmem : jobId ∈ s.runningJobs := h.liveIn jobId job hget (Or.inr hc.1)
      refine ⟨?_, h.nodupRun, h.runLe, ?_, ?_, h.fifo, h.subNodup, ?_⟩
      · rw [mapSet_map_fst_of_get_some _ _ _ _ hget]
        exact h.nodupKeys
      · intro id hid
        by_cases he : id = jobId
        · subst he
          exact ⟨_, mapGet_set_self _ _ _, Or.inl rfl⟩
        · obtain ⟨j, hj, hst⟩ := h.runJobs id hid
          exact ⟨j, by rw [mapGet_set_ne _ _ _ _ he]; exact hj, hst⟩
      · intro id j hj hst
        by_cases he : id = jobId
        · subst he
          exact hmem
        · rw [mapGet_set_ne _ _ _ _ he] at hj
          exact h.liveIn id j hj hst
      · intro id hid
        rw [mapSet_map_fst_of_get_some _ _ _ _ hget]
        exact h.subKeys id hid
    · rw [resumeJob_eq_neg s jobId job hget hc] at hok
      simp only [Except.ok.injEq] at hok
      rw [← hok]
      exact h

/-- Invariance of any state whose job `jobId` was moved to a terminal
    status and removed from the run-set, with the registry otherwise
    intact (common shape of the close and error handlers). -/
theorem inv_of_fields {K : Nat} (s2 base : JM) (h : Inv K base) (jobId : String)
    (job1 w : ActiveJob)
    (hget : mapGet base.activeJobs jobId = some w)
    (hterm : ¬(job1.status = JobStatus.running ∨ job1.status = JobStatus.paused))
    (hactive : s2.activeJobs = mapSet base.activeJobs jobId job1)
    (hrun : s2.runningJobs = base.runningJobs.filter (fun i => decide (i ≠ jobId)))
    (hq : s2.jobQueue = base.jobQueue)
    (hsub : s2.submittedLog = base.submittedLog)
    (hadm : s2.admittedLog = base.admittedLog) :
    Inv K s2 := by
  refine ⟨?_, ?_, ?_, ?_, ?_, ?_, ?_, ?_⟩
  · rw [hactive, mapSet_map_fst_of_get_some _ _ _ _ hget]
    exact h.nodupKeys
  · rw [hrun]
    exact h.nodupRun.filter _
  · rw [hrun]
    exact (List.length_filter_le _ _).trans h.runLe
  · intro id hid
    rw [hrun] at hid
    obtain ⟨hidm, hne⟩ := List.mem_filter.mp hid
    have hne2 : id ≠ jobId := by simpa using hne
    obtain ⟨j, hj, hst⟩ := h.runJobs id hidm
    refine ⟨j, ?_, hst⟩
    rw [hactive, mapGet_set_ne _ _ _ _ hne2]
    exact hj
  · intro id j hj hst
    rw [hactive] at hj
    by_cases he : id = jobId
    · subst he
      rw [mapGet_set_self] at hj
      cases hj
      exact absurd hst hterm
    · rw [mapGet_set_ne _ _ _ _ he] at hj
      rw [hrun]
      exact List.mem_filter.mpr ⟨h.liveIn id j hj hst, by simpa using he⟩
  · rw [hadm, hq, hsub]
    exact h.fifo
  · rw [hsub]
    exact h.subNodup
  · intro id hid
    rw [hactive, mapSet_map_fst_of_get_some _ _ _ _ hget]
    rw [hsub] at hid
    exact h.subKeys id hid

/-- The close handler preserves the invariant. -/
theorem closeJob_inv {K now : Nat} {s : JM} (h : Inv K s) (jobId : String)
    (code : Option Int) (iSz : Nat) (oEx : Bool) (oSz : Nat) :
    Inv K (closeJob K now s jobId code iSz oEx oSz) := by
  cases hget : mapGet s.activeJobs jobId with
  | none =>
    unfold closeJob
    simp only [hget]
    exact h
  | some job =>
    by_cases hc : code = some 0
    · subst hc
      rw [closeJob_eq_success K now s jobId iSz oEx oSz job hget]
      apply processQueue_inv
      exact inv_of_fields _ s h jobId _ job hget
        (by rintro (hst | hst) <;> simp [closeSuccessJob] at hst) rfl rfl rfl rfl rfl
    · rw [closeJob_eq_failure K now s jobId code iSz oEx oSz job hget hc]
      apply processQueue_inv
      exact inv_of_fields _ s h jobId _ job hget
        (by rintro (hst | hst) <;> simp [closeFailJob] at hst) rfl rfl rfl rfl rfl

/-- The error handler preserves the invariant. -/
theorem procErrJob_inv {K now : Nat} {s : JM} (h : Inv K s) (jobId : String)
    (msg : String) : Inv K (procErrJob K now s jobId msg) := by
  cases hget : mapGet s.activeJobs jobId with
  | none =>
    unfold procErrJob
    simp only [hget]
    exact h
  | some job =>
    rw [procErrJob_eq K now s jobId msg job hget]
    apply processQueue_inv
    exact inv_of_fields _ s h jobId _ job hget
      (by rintro (hst | hst) <;> simp at hst) rfl rfl rfl rfl rfl

/-- The stderr data handler preserves the invariant. -/
theorem stderrDataJob_inv {K : Nat} {s : JM} (h : Inv K s) (jobId : String)
    (chunk : String) : Inv K (stderrDataJob s jobId chunk) := by
  cases hget : mapGet s.activeJobs jobId with
  | none =>
    unfold stderrDataJob
    simp only [hget]
    exact h
  | some job =>
    rw [stderrDataJob_eq s jobId chunk job hget]
    refine ⟨?_, h.nodupRun, h.runLe, ?_, ?_, h.fifo, h.subNodup, ?_⟩
    · rw [mapSet_map_fst_of_get_some _ _ _ _ hget]
      exact h.nodupKeys
    · intro id hid
      by_cases he : id = jobId
      · subst he
        obtain ⟨j, hj, hst⟩ := h.runJobs id hid
        rw [hget] at hj
        cases hj
        exact ⟨appendChunk job chunk, mapGet_set_self _ _ _, hst⟩
      · obtain ⟨j, hj, hst⟩ := h.runJobs id hid
        exact ⟨j, by rw [mapGet_set_ne _ _ _ _ he]; exact hj, hst⟩
    · intro id j hj hst
      by_cases he : id = jobId
      · subst he
        rw [mapGet_set_self] at hj
        cases hj
        exact h.liveIn id job hget hst
      · rw [mapGet_set_ne _ _ _ _ he] at hj
        exact h.liveIn id j hj hst
    · intro id hid
      rw [mapSet_map_fst_of_get_some _ _ _ _ hget]
      exact h.subKeys id hid

/-- Every event of the loop preserves the invariant. -/
theorem step_inv (K : Nat) (s : JM) (e : Ev) (h : Inv K s) : Inv K (step K s e) := by
  cases e with
  | submit jobId cfg inputExists now =>
    simp only [step]
    cases hget : mapGet s.activeJobs jobId with
    | some job => exact h
    | none =>
      cases hok : submitJob K now s jobId cfg inputExists with
      | ok s2 => exact submitJob_inv h jobId cfg inputExists hget hok
      | error e2 => exact h
  | cancel jobId now =>
    simp only [step]
    cases hok : cancelJob K now s jobId with
    | ok s2 => exact cancelJob_inv h jobId hok
    | error e2 => exact h
  | pause jobId =>
    simp only [step]
    cases hok : pauseJob s jobId with
    | ok s2 => exact pauseJob_inv h jobId hok
    | error e2 => exact h
  | resume jobId =>
    simp only [step]
    cases hok : resumeJob s jobId with
    | ok s2 => exact resumeJob_inv h jobId hok
    | error e2 => exact h
  | stderrData jobId chunk =>
    cases hget : mapGet s.activeJobs jobId with
    | none =>
      simp only [step, hget]
      exact h
    | some job =>
      by_cases hg : job.spawned = true ∧ job.procClosed = false
      · rw [step_stderr_eq K s jobId chunk job hget hg.1 hg.2]
        exact stderrDataJob_inv h jobId chunk
      · have he : step K s (Ev.stderrData jobId chunk) = s := by
          simp only [step, hget]
          rw [if_neg hg]
        rw [he]
        exact h
  | close jobId code iSz oEx oSz now =>
    cases hget : mapGet s.activeJobs jobId with
    | none =>
      simp only [step, hget]
      exact h
    | some job =>
      by_cases hg : job.spawned = true ∧ job.procClosed = false
      · rw [step_close_eq K s jobId code iSz oEx oSz now job hget hg.1 hg.2]
        exact closeJob_inv h jobId code iSz oEx oSz
      · have he : step K s (Ev.close jobId code iSz oEx oSz now) = s := by
          simp only [step, hget]
          rw [if_neg hg]
        rw [he]
        exact h
  | procErr jobId msg now =>
    cases hget : mapGet s.activeJobs jobId with
    | none =>
      simp only [step, hget]
      exact h
    | some job =>
      by_cases hg : job.spawned = true ∧ job.procClosed = false
      · rw [step_procErr_eq K s jobId msg now job hget hg.1 hg.2]
        exact procErrJob_inv h jobId msg
      · have he : step K s (Ev.procErr jobId msg now) = s := by
          simp only [step, hget]
          rw [if_neg hg]
        rw [he]
        exact h

/-- The invariant holds in every reachable state. -/
theorem run_inv (K : Nat) (evs : List Ev) : Inv K (run K evs) := by
  have hh : ∀ s, Inv K s → Inv K (evs.foldl (step K) s) := by
    induction evs with
    | nil => intro s h; exact h
    | cons e rest ih => intro s h; exact ih _ (step_inv K s e h)
  exact hh initJM (inv_init K)

/-- The invariant bounds the number of running jobs. -/
theorem countRunning_le_of_inv {K : Nat} {s : JM} (h : Inv K s) :
    countRunning s ≤ K := by
  unfold countRunning
  have hsubl : (s.activeJobs.filter
      (fun p => decide (p.2.status = JobStatus.running))).Sublist s.activeJobs :=
    List.filter_sublist _
  have hnd : ((s.activeJobs.filter
      (fun p => decide (p.2.status = JobStatus.running))).map Prod.fst).Nodup :=
    List.Nodup.sublist (hsubl.map Prod.fst) h.nodupKeys
  have hsubset : ((s.activeJobs.filter
      (fun p => decide (p.2.status = JobStatus.running))).map Prod.fst) ⊆ s.runningJobs := by
    intro x hx
    obtain ⟨⟨k, v⟩, hp, hfst⟩ := List.mem_map.mp hx
    obtain ⟨hmem, hrun⟩ := List.mem_filter.mp hp
    have hrun2 : v.status = JobStatus.running := of_decide_eq_true hrun
    have hget : mapGet s.activeJobs k = some v :=
      mapGet_of_mem_nodup _ _ _ h.nodupKeys hmem
    have hin : k ∈ s.runningJobs := h.liveIn k v hget (Or.inl hrun2)
    exact hfst ▸ hin
  calc (s.activeJobs.filter (fun p => decide (p.2.status = JobStatus.running))).length
      = ((s.activeJobs.filter
          (fun p => decide (p.2.status = JobStatus.running))).map Prod.fst).length :=
        (List.length_map _ _).symm
    _ ≤ s.runningJobs.length := (List.Nodup.subperm hnd hsubset).length_le
    _ ≤ K := h.runLe

/-- C1: for every configured maximum parallelism `K` and every sequence of
    submit, cancel, pause, resume, stderr-data, close and process-error
    events, at no reachable instant do more than `K` jobs of the registry
    hold status running. -/
theorem c1_running_bounded_by_max_parallel (K : Nat) (evs : List Ev) :
    countRunning (run K evs) ≤ K :=
  countRunning_le_of_inv (run_inv K evs)

/-- C2: in every reachable state, the Waiting to Running admission order
    already taken (`admittedLog`), followed by the ids still waiting in
    queue order, is a subsequence of the duplicate-free submission order:
    admissions happen in strict submission order and neither completions
    nor any other event reorder the remaining waiting jobs. -/
theorem c2_fifo_admission_order (K : Nat) (evs : List Ev) :
    ((run K evs).admittedLog ++ (run K evs).jobQueue).Sublist
      (run K evs).submittedLog ∧ (run K evs).submittedLog.Nodup :=
  ⟨(run_inv K evs).fifo, (run_inv K evs).subNodup⟩

/-- The admission loop never touches the emitted, history or signal logs. -/
theorem processQueueAux_frame (K now : Nat) (fuel : Nat) :
    ∀ s : JM, (processQueueAux K now fuel s).emitted = s.emitted ∧
      (processQueueAux K now fuel s).history = s.history ∧
      (processQueueAux K now fuel s).signals = s.signals := by
  induction fuel with
  | zero => intro s; exact ⟨rfl, rfl, rfl⟩
  | succ n ih =>
    intro s
    by_cases hlt : s.runningJobs.length < K
    · cases hq : s.jobQueue with
      | nil =>
        rw [processQueueAux_nil K now n s hq]
        exact ⟨rfl, rfl, rfl⟩
      | cons jobId rest =>
        cases hget : mapGet s.activeJobs jobId with
        | none =>
          rw [processQueueAux_cons_none K now n s jobId rest hq hlt hget]
          exact ih _
        | some job =>
          by_cases hw : job.status = JobStatus.waiting
          · rw [processQueueAux_cons_admitJob K now n s jobId rest job hq hlt hget hw]
            exact ih _
          · rw [processQueueAux_cons_skip K now n s jobId rest job hq hlt hget hw]
            exact ih _
    · rw [processQueueAux_stop K now n s hlt]
      exact ⟨rfl, rfl, rfl⟩

theorem processQueue_emitted (K now : Nat) (s : JM) :
    (processQueue K now s).emitted = s.emitted :=
  (processQueueAux_frame K now s.jobQueue.length s).1

theorem processQueue_history (K now : Nat) (s : JM) :
    (processQueue K now s).history = s.history :=
  (processQueueAux_frame K now s.jobQueue.length s).2.1

theorem processQueue_signals (K now : Nat) (s : JM) :
    (processQueue K now s).signals = s.signals :=
  (processQueueAux_frame K now s.jobQueue.length s).2.2

/-- The admission loop modifies only waiting jobs, so the registry entry of
    a non-waiting job is untouched by it. -/
theorem processQueueAux_get_nonwaiting (K now : Nat) (fuel : Nat) :
    ∀ (s : JM) (id : String) (j : ActiveJob), mapGet s.activeJobs id = some j →
      ¬ j.status = JobStatus.waiting →
      mapGet (processQueueAux K now fuel s).activeJobs id = some j := by
  induction fuel with
  | zero => intro s id j hj hnw; exact hj
  | succ n ih =>
    intro s id j hj hnw
    by_cases hlt : s.runningJobs.length < K
    · cases hq : s.jobQueue with
      | nil =>
        rw [processQueueAux_nil K now n s hq]
        exact hj
      | cons jobId rest =>
        cases hget : mapGet s.activeJobs jobId with
        | none =>
          rw [processQueueAux_cons_none K now n s jobId rest hq hlt hget]
          exact ih _ id j hj hnw
        | some job =>
          by_cases hw : job.status = JobStatus.waiting
          · rw [processQueueAux_cons_admitJob K now n s jobId rest job hq hlt hget hw]
            apply ih
            · have hne : id ≠ jobId := by
                intro he
                subst he
                rw [hj] at hget
                cases hget
                exact hnw hw
              show mapGet (mapSet s.activeJobs jobId _) id = some j
              rw [mapGet_set_ne _ _ _ _ hne]
              exact hj
            · exact hnw
          · rw [processQueueAux_cons_skip K now n s jobId rest job hq hlt hget hw]
            exact ih _ id j hj hnw
    · rw [processQueueAux_stop K now n s hlt]
      exact hj

theorem processQueue_get_nonwaiting (K now : Nat) (s : JM) (id : String)
    (j : ActiveJob) (hj : mapGet s.activeJobs id = some j)
    (hnw : ¬ j.status = JobStatus.waiting) :
    mapGet (processQueue K now s).activeJobs id = some j :=
  processQueueAux_get_nonwaiting K now s.jobQueue.length s id j hj hnw

/-
Concrete fixtures for the per-claim scenarios.
-/

/-- C3 counterexample: cancelling an already-completed job is not a
    guarded no-op. The call succeeds (no error of any kind is reported,
    and no InvalidStateTransition exists anywhere in the source), the
    recorded status is overwritten from completed to cancelled, and one
    more completion event is emitted. -/
theorem c3_cancel_terminal_cex :
    (mapGet c3s0.activeJobs "a").map ActiveJob.status = some JobStatus.completed ∧
    (mapGet (step 2 c3s0 (Ev.cancel "a" 9)).activeJobs "a").map ActiveJob.status =
      some JobStatus.cancelled ∧
    JobStatus.cancelled ≠ JobStatus.completed ∧
    c3s0.emitted.length = 0 ∧
    (step 2 c3s0 (Ev.cancel "a" 9)).emitted.length = 1 := by
  decide

/-- C3 (amended): calling cancel on an already-terminal job is neither a
    no-op nor an InvalidStateTransition report: the call returns normally,
    overwrites the recorded status with cancelled, and emits one further
    completion event with success false; only the history is left
    untouched by the cancel itself. -/
theorem c3_cancel_terminal_mutates (K now : Nat) (s : JM) (jobId : String)
    (job : ActiveJob) (hget : mapGet s.activeJobs jobId = some job)
    (hterm : job.status = JobStatus.completed ∨ job.status = JobStatus.failed ∨
      job.status = JobStatus.cancelled) :
    ∃ s2, cancelJob K now s jobId = Except.ok s2 ∧
      mapGet s2.activeJobs jobId = some { job with status := JobStatus.cancelled } ∧
      s2.emitted = s.emitted ++
        [{ jobId := jobId, success := false, error := some "Job cancelled" }] ∧
      s2.history = s.history := by
  refine ⟨_, cancelJob_eq K now s jobId job hget, ?_, ?_, ?_⟩
  · apply processQueue_get_nonwaiting
    · exact mapGet_set_self _ _ _
    · intro hw
      exact JobStatus.noConfusion hw
  · rw [processQueue_emitted]
  · rw [processQueue_history]

/-- C3 witness at the concrete completed job. -/
theorem c3_cancel_terminal_mutates_witness :
    ∃ s2, cancelJob 2 9 c3s0 "a" = Except.ok s2 ∧
      mapGet s2.activeJobs "a" = some { doneJobA with status := JobStatus.cancelled } ∧
      s2.emitted = c3s0.emitted ++
        [{ jobId := "a", success := false, error := some "Job cancelled" }] ∧
      s2.history = c3s0.history :=
  c3_cancel_terminal_mutates 2 9 c3s0 "a" doneJobA rfl (Or.inl rfl)

/-- C5: when the encoder process of a registered, spawned, not yet reaped
    job exits with code zero, the job is marked completed with progress
    forced to 100, a success history entry is written whose compression
    ratio is the measured output size over the input size (for positive
    input size), and a success completion event is emitted. -/
theorem c5_close_zero_completes (K : Nat) (s : JM) (jobId : String) (job : ActiveJob)
    (iSz oSz now : Nat) (hget : mapGet s.activeJobs jobId = some job)
    (hsp : job.spawned = true) (hcl : job.procClosed = false) (hpos : 0 < iSz) :
    mapGet (step K s (Ev.close jobId (some 0) iSz true oSz now)).activeJobs jobId =
      some (closeSuccessJob job true oSz) ∧
    (closeSuccessJob job true oSz).status = JobStatus.completed ∧
    (closeSuccessJob job true oSz).progress = 100 ∧
    (step K s (Ev.close jobId (some 0) iSz true oSz now)).history =
      s.history ++ [closeSuccessEntry job iSz true oSz now] ∧
    (closeSuccessEntry job iSz true oSz now).status = "success" ∧
    (closeSuccessEntry job iSz true oSz now).compressedSize = oSz ∧
    (closeSuccessEntry job iSz true oSz now).compressionRatio = (oSz : Rat) / (iSz : Rat) ∧
    (step K s (Ev.close jobId (some 0) iSz true oSz now)).emitted =
      s.emitted ++ [{ jobId := jobId, success := true, error := none }] := by
  rw [step_close_eq K s jobId (some 0) iSz true oSz now job hget hsp hcl,
      closeJob_eq_success K now s jobId iSz true oSz job hget]
  refine ⟨?_, rfl, rfl, ?_, rfl, rfl, ?_, ?_⟩
  · apply processQueue_get_nonwaiting
    · exact mapGet_set_self _ _ _
    · intro hw
      exact JobStatus.noConfusion hw
  · rw [processQueue_history]
  · simp only [closeSuccessEntry]
    rw [if_pos hpos]
    simp [closeSuccessJob]
  · rw [processQueue_emitted]

/-- C5 witness: input 100000000 bytes, output 40000000 bytes, recorded
    ratio exactly two fifths, progress forced to 100. -/
theorem c5_close_zero_completes_witness :
    (step 2 c5s0 (Ev.close "a" (some 0) 100000000 true 40000000 200)).history =
      c5s0.history ++ [closeSuccessEntry c5RunJob 100000000 true 40000000 200] ∧
    (closeSuccessEntry c5RunJob 100000000 true 40000000 200).compressionRatio =
      (40000000 : Rat) / (100000000 : Rat) ∧
    (40000000 : Rat) / (100000000 : Rat) = 2 / 5 ∧
    (closeSuccessEntry c5RunJob 100000000 true 40000000 200).compressedSize = 40000000 ∧
    (mapGet (step 2 c5s0
        (Ev.close "a" (some 0) 100000000 true 40000000 200)).activeJobs "a").map
      ActiveJob.progress = some 100 := by
  have h := c5_close_zero_completes 2 c5s0 "a" c5RunJob 100000000 40000000 200
    rfl rfl rfl (by norm_num)
  refine ⟨h.2.2.2.1, h.2.2.2.2.2.2.1, by norm_num, h.2.2.2.2.2.1, ?_⟩
  rw [h.1]
  rfl

/-- C6 counterexample: a spawn-level process error leaves the job failed,
    but no failure history entry is written by the error handler, and the
    recorded error detail is the spawn message, not a trailing slice of
    the accumulated diagnostic output. -/
theorem c6_spawn_error_no_history_cex :
    (mapGet c6s0.activeJobs "a").map ActiveJob.status = some JobStatus.running ∧
    c6Job.stderrBuf = "frame=1 some diagnostics" ∧
    (step 2 c6s0 (Ev.procErr "a" "boom" 7)).history = [] ∧
    (mapGet (step 2 c6s0 (Ev.procErr "a" "boom" 7)).activeJobs "a").map ActiveJob.status =
      some JobStatus.failed ∧
    (mapGet (step 2 c6s0 (Ev.procErr "a" "boom" 7)).activeJobs "a").map ActiveJob.error =
      some (some "FFmpeg process error: boom") := by
  decide

/-- C6 (amended): a nonzero exit marks the job failed with the trailing
    500-character slice of the diagnostic output in the error detail,
    writes a failure history entry with zero compressed size and zero
    ratio, and emits a completion event with that error; a spawn-level
    process error marks the job failed with the spawn message and emits a
    completion event, but writes no history entry itself. -/
theorem c6_runtime_failures (K : Nat) (s : JM) (jobId : String) (job : ActiveJob)
    (hget : mapGet s.activeJobs jobId = some job)
    (hsp : job.spawned = true) (hcl : job.procClosed = false) :
    (∀ (code : Option Int) (iSz : Nat) (oEx : Bool) (oSz now : Nat), ¬ code = some 0 →
      mapGet (step K s (Ev.close jobId code iSz oEx oSz now)).activeJobs jobId =
        some (closeFailJob job code) ∧
      (closeFailJob job code).status = JobStatus.failed ∧
      (closeFailJob job code).error = some ("FFmpeg exited with code " ++
        exitCodeRepr code ++ ". Error: " ++ sliceLast 500 job.stderrBuf) ∧
      (step K s (Ev.close jobId code iSz oEx oSz now)).history =
        s.history ++ [closeFailEntry job code iSz now] ∧
      (closeFailEntry job code iSz now).compressedSize = 0 ∧
      (closeFailEntry job code iSz now).compressionRatio = 0 ∧
      (closeFailEntry job code iSz now).status = "failed" ∧
      (step K s (Ev.close jobId code iSz oEx oSz now)).emitted = s.emitted ++
        [{ jobId := jobId, success := false, error := some (failMessage code job.stderrBuf) }]) ∧
    (∀ (msg : String) (now : Nat),
      mapGet (step K s (Ev.procErr jobId msg now)).activeJobs jobId =
        some { job with status := JobStatus.failed, error := some ("FFmpeg process error: " ++ msg) } ∧
      (step K s (Ev.procErr jobId msg now)).history = s.history ∧
      (step K s (Ev.procErr jobId msg now)).emitted = s.emitted ++
        [{ jobId := jobId, success := false, error := some ("FFmpeg process error: " ++ msg) }]) := by
  constructor
  · intro code iSz oEx oSz now hcode
    rw [step_close_eq K s jobId code iSz oEx oSz now job hget hsp hcl,
        closeJob_eq_failure K now s jobId code iSz oEx oSz job hget hcode]
    refine ⟨?_, rfl, rfl, ?_, rfl, rfl, rfl, ?_⟩
    · apply processQueue_get_nonwaiting
      · exact mapGet_set_self _ _ _
      · intro hw
        exact JobStatus.noConfusion hw
    · rw [processQueue_history]
    · rw [processQueue_emitted]
  · intro msg now
    rw [step_procErr_eq K s jobId msg now job hget hsp hcl,
        procErrJob_eq K now s jobId msg job hget]
    refine ⟨?_, ?_, ?_⟩
    · apply processQueue_get_nonwaiting
      · exact mapGet_set_self _ _ _
      · intro hw
        exact JobStatus.noConfusion hw
    · rw [processQueue_history]
    · rw [processQueue_emitted]

/-- C6 witness: nonzero exit writes the failure entry with zero sizes and
    the stderr tail in the error; the spawn error emits but does not touch
    the history. -/
theorem c6_runtime_failures_witness :
    ((step 2 c6s0 (Ev.close "a" (some 1) 1000 false 0 9)).history =
      c6s0.history ++ [closeFailEntry c6Job (some 1) 1000 9] ∧
     (closeFailEntry c6Job (some 1) 1000 9).compressedSize = 0 ∧
     (closeFailEntry c6Job (some 1) 1000 9).compressionRatio = 0) ∧
    ((step 2 c6s0 (Ev.procErr "a" "boom" 7)).history = c6s0.history ∧
     (step 2 c6s0 (Ev.procErr "a" "boom" 7)).emitted = c6s0.emitted ++
       [{ jobId := "a", success := false, error := some "FFmpeg process error: boom" }]) := by
  have h := c6_runtime_failures 2 c6s0 "a" c6Job rfl rfl rfl
  have h1 := h.1 (some 1) 1000 false 0 9 (by decide)
  have h2 := h.2 "boom" 7
  exact ⟨⟨h1.2.2.2.1, h1.2.2.2.2.1, h1.2.2.2.2.2.1⟩, ⟨h2.2.1, h2.2.2⟩⟩

/-- C7 counterexample: pause of a waiting job and resume of a waiting job
    both return normally with the state completely unchanged; no
    InvalidStateTransition (indeed no error at all) is reported. -/
theorem c7_pause_resume_cex :
    (mapGet c7s0.activeJobs "w").map ActiveJob.status = some JobStatus.waiting ∧
    pauseJob c7s0 "w" = Except.ok c7s0 ∧
    resumeJob c7s0 "w" = Except.ok c7s0 := by
  refine ⟨by decide, ?_, ?_⟩ <;> rfl

/-- C7 (amended): pause transitions only a running job owning a process to
    paused via SIGSTOP, and resume only a paused job owning a process to
    running via SIGCONT; in every other starting state of a registered job
    the call performs no mutation but reports nothing: it returns
    normally, with no InvalidStateTransition outcome. -/
theorem c7_pause_resume_guarded :
    (∀ (s : JM) (jobId : String) (job : ActiveJob),
      mapGet s.activeJobs jobId = some job →
      job.status = JobStatus.running → job.spawned = true →
      pauseJob s jobId = Except.ok
        { s with
            signals := s.signals ++ [(jobId, "SIGSTOP")],
            activeJobs := mapSet s.activeJobs jobId { job with status := JobStatus.paused } }) ∧
    (∀ (s : JM) (jobId : String) (job : ActiveJob),
      mapGet s.activeJobs jobId = some job →
      ¬(job.status = JobStatus.running ∧ job.spawned = true) →
      pauseJob s jobId = Except.ok s) ∧
    (∀ (s : JM) (jobId : String) (job : ActiveJob),
      mapGet s.activeJobs jobId = some job →
      job.status = JobStatus.paused → job.spawned = true →
      resumeJob s jobId = Except.ok
        { s with
            signals := s.signals ++ [(jobId, "SIGCONT")],
            activeJobs := mapSet s.activeJobs jobId { job with status := JobStatus.running } }) ∧
    (∀ (s : JM) (jobId : String) (job : ActiveJob),
      mapGet s.activeJobs jobId = some job →
      ¬(job.status = JobStatus.paused ∧ job.spawned = true) →
      resumeJob s jobId = Except.ok s) := by
  refine ⟨?_, ?_, ?_, ?_⟩
  · intro s jobId job hget h1 h2
    exact pauseJob_eq_pos s jobId job hget ⟨h1, h2⟩
  · intro s jobId job hget hc
    exact pauseJob_eq_neg s jobId job hget hc
  · intro s jobId job hget h1 h2
    exact resumeJob_eq_pos s jobId job hget ⟨h1, h2⟩
  · intro s jobId job hget hc
    exact resumeJob_eq_neg s jobId job hget hc

/-- C7 witness: the running job is paused with a SIGSTOP, while pause and
    resume of the waiting job are error-free no-ops. -/
theorem c7_pause_resume_guarded_witness :
    pauseJob c7s0 "b" = Except.ok
      { c7s0 with
          signals := c7s0.signals ++ [("b", "SIGSTOP")],
          activeJobs := mapSet c7s0.activeJobs "b"
            { runJobB with status := JobStatus.paused } } ∧
    pauseJob c7s0 "w" = Except.ok c7s0 ∧
    resumeJob c7s0 "w" = Except.ok c7s0 :=
  ⟨c7_pause_resume_guarded.1 c7s0 "b" runJobB rfl rfl rfl,
   c7_pause_resume_guarded.2.1 c7s0 "w" waitJobW rfl (by decide),
   c7_pause_resume_guarded.2.2.2 c7s0 "w" waitJobW rfl (by decide)⟩

/-- C9 counterexample: on cleanup, the paused job with a live process is
    not sent any termination signal although the whole coordinator state
    is discarded; only the running job is killed. -/
theorem c9_cleanup_cex :
    (mapGet c9s0.activeJobs "p").map ActiveJob.status = some JobStatus.paused ∧
    (mapGet c9s0.activeJobs "p").map ActiveJob.spawned = some true ∧
    (cleanup c9s0).signals = [("r", "SIGKILL")] ∧
    ("p", "SIGKILL") ∉ (cleanup c9s0).signals ∧
    (cleanup c9s0).activeJobs = [] ∧ (cleanup c9s0).jobQueue = [] ∧
    (cleanup c9s0).runningJobs = [] := by
  decide

/-- C9 (amended): cleanup SIGKILLs exactly the jobs that own a process and
    have status running, then discards the registry, the queue and the
    run-set; a paused job receives no termination signal. -/
theorem c9_cleanup_kills_running_only (s : JM) (jobId : String) (j : ActiveJob)
    (hnd : (s.activeJobs.map Prod.fst).Nodup)
    (hget : mapGet s.activeJobs jobId = some j) :
    (cleanup s).activeJobs = [] ∧ (cleanup s).jobQueue = [] ∧
    (cleanup s).runningJobs = [] ∧
    (j.spawned = true → j.status = JobStatus.running →
      (jobId, "SIGKILL") ∈ (cleanup s).signals) ∧
    (j.status = JobStatus.paused →
      ((jobId, "SIGKILL") ∈ (cleanup s).signals ↔ (jobId, "SIGKILL") ∈ s.signals)) := by
  refine ⟨rfl, rfl, rfl, ?_, ?_⟩
  · intro hsp hrun
    simp only [cleanup, List.mem_append]
    right
    apply List.mem_filterMap.mpr
    refine ⟨(jobId, j), mapGet_some_mem _ _ _ hget, ?_⟩
    rw [if_pos ⟨hsp, hrun⟩]
  · intro hp
    simp only [cleanup, List.mem_append]
    constructor
    · rintro (hin | hin)
      · exact hin
      · obtain ⟨⟨k, v⟩, hkv, hcond⟩ := List.mem_filterMap.mp hin
        by_cases hvc : v.spawned = true ∧ v.status = JobStatus.running
        · rw [if_pos hvc] at hcond
          have hk : k = jobId := congrArg Prod.fst (Option.some.inj hcond)
          subst hk
          have h2 := mapGet_of_mem_nodup _ _ _ hnd hkv
          rw [hget] at h2
          have hvj : v = j := Option.some.inj h2.symm
          rw [hvj, hp] at hvc
          exact absurd hvc.2 (by decide)
        · rw [if_neg hvc] at hcond
          cases hcond
    · intro hin
      exact Or.inl hin

/-- C9 witness: the running job is killed, the paused job is not, and the
    state is discarded. -/
theorem c9_cleanup_kills_running_only_witness :
    ("r", "SIGKILL") ∈ (cleanup c9s0).signals ∧
    (("p", "SIGKILL") ∈ (cleanup c9s0).signals ↔ ("p", "SIGKILL") ∈ c9s0.signals) ∧
    (cleanup c9s0).activeJobs = [] :=
  ⟨(c9_cleanup_kills_running_only c9s0 "r" c9RunJob (by decide) rfl).2.2.2.1 rfl rfl,
   (c9_cleanup_kills_running_only c9s0 "p" c9PausedJob (by decide) (by decide)).2.2.2.2 rfl,
   (c9_cleanup_kills_running_only c9s0 "r" c9RunJob (by decide) rfl).1⟩

theorem dropWhile_append_of_ne_nil (p : Char → Bool) (l t : List Char)
    (h : l.dropWhile p ≠ []) : (l ++ t).dropWhile p = l.dropWhile p ++ t := by
  induction l with
  | nil => exact absurd rfl h
  | cons c rest ih =>
    rw [List.cons_append, List.dropWhile_cons, List.dropWhile_cons]
    by_cases hc : p c
    · rw [List.dropWhile_cons, if_pos hc] at h
      rw [if_pos hc, if_pos hc]
      exact ih h
    · rw [if_neg hc, if_neg hc, List.cons_append]

theorem takeWhile_append_of_dropWhile_ne_nil (p : Char → Bool) (l t : List Char)
    (h : l.dropWhile p ≠ []) : (l ++ t).takeWhile p = l.takeWhile p := by
  induction l with
  | nil => exact absurd rfl h
  | cons c rest ih =>
    by_cases hc : p c
    · rw [List.dropWhile_cons, if_pos hc] at h
      rw [List.cons_append, List.takeWhile_cons, List.takeWhile_cons, if_pos hc, if_pos hc, ih h]
    · rw [List.cons_append, List.takeWhile_cons, List.takeWhile_cons, if_neg hc, if_neg hc]

theorem suffix_append_cases {α : Type} (sfx x y : List α) (h : sfx <:+ x ++ y) :
    sfx <:+ y ∨ ∃ x2, x2 ≠ [] ∧ x2 <:+ x ∧ sfx = x2 ++ y := by
  induction x with
  | nil => left; simpa using h
  | cons a x ih =>
    rw [List.cons_append] at h
    rcases List.suffix_cons_iff.mp h with h1 | h1
    · right
      exact ⟨a :: x, by simp, List.suffix_refl _, by rw [h1, List.cons_append]⟩
    · rcases ih h1 with h2 | ⟨x2, hne, hx2, heq⟩
      · exact Or.inl h2
      · exact Or.inr ⟨x2, hne, hx2.trans (List.suffix_cons a x), heq⟩

theorem head_mem_of_suffix {α : Type} {c : α} {rest r : List α} (h : (c :: rest) <:+ r) :
    c ∈ r :=
  h.subset (List.mem_cons_self c rest)

theorem proper_suffix_head {α : Type} {x2 : List α} {a : α} {tl : List α}
    (h : x2 <:+ a :: tl) (hfull : x2 ≠ a :: tl) :
    x2 = [] ∨ ∃ b ∈ tl, x2.head? = some b := by
  rcases List.suffix_cons_iff.mp h with h1 | h1
  · exact absurd h1 hfull
  · cases x2 with
    | nil => exact Or.inl rfl
    | cons c rest =>
      exact Or.inr ⟨c, head_mem_of_suffix h1, rfl⟩

theorem no_suffix_start_anywhere {sfx lit mid r3 : List Char} {kc : Char}
    (hsfx : sfx <:+ lit ++ mid ++ r3)
    (hlen : sfx.length < lit.length + mid.length + r3.length)
    (hlen3 : r3.length < sfx.length)
    (hhead : sfx.head? = some kc)
    (hmid : ∀ c2 ∈ mid, ¬ kc = c2)
    (hlit : ∀ b ∈ lit.tail, ¬ kc = b) :
    False := by
  rcases suffix_append_cases sfx (lit ++ mid) r3 hsfx with h1 | ⟨x2, hne, hx2, heq⟩
  · have := h1.length_le
    omega
  · have hx2h : x2.head? = some kc := by
      cases x2 with
      | nil => exact absurd rfl hne
      | cons d dr =>
        rw [heq] at hhead
        exact hhead
    rcases suffix_append_cases x2 lit mid hx2 with h2 | ⟨x3, hne3, hx3, heq3⟩
    · cases x2 with
      | nil => exact absurd rfl hne
      | cons d dr =>
        have hd : d = kc := Option.some.inj hx2h
        subst hd
        exact hmid _ (head_mem_of_suffix h2) rfl
    · have hx3h : x3.head? = some kc := by
        cases x3 with
        | nil => exact absurd rfl hne3
        | cons d dr =>
          rw [heq3] at hx2h
          exact hx2h
      cases lit with
      | nil =>
        have : x3 = [] := List.suffix_nil.mp hx3
        exact hne3 this
      | cons a tl =>
        by_cases hfull : x3 = a :: tl
        · rw [hfull] at heq3
          rw [heq3] at heq
          rw [heq] at hlen
          simp [List.length_append] at hlen
          omega
        · rcases proper_suffix_head hx3 hfull with h0 | ⟨b, hb, hbh⟩
          · exact hne3 h0
          · rw [hx3h] at hbh
            exact hlit b hb (Option.some.inj hbh)

theorem take_eq_len_le {α : Type} {l lit : List α} {k : Nat} (h : l.take k = lit)
    (hk : lit.length = k) : k ≤ l.length := by
  have h2 := congrArg List.length h
  rw [List.length_take, hk] at h2
  omega

theorem head?_of_take {α : Type} {l lit : List α} {k : Nat} {c : α} (h : l.take k = lit)
    (hh : lit.head? = some c) : l.head? = some c := by
  cases l with
  | nil => rw [List.take_nil] at h; rw [← h] at hh; cases hh
  | cons a r =>
    cases k with
    | zero => rw [List.take_zero] at h; rw [← h] at hh; cases hh
    | succ n =>
      rw [List.take_succ_cons] at h
      rw [← h] at hh
      exact hh

theorem take_one_of_head? {l : List Char} {c : Char} (h : l.head? = some c) :
    l.take 1 = [c] := by
  cases l with
  | nil => cases h
  | cons a r =>
    cases h
    rfl

theorem length_takeWhile_add (p : Char → Bool) (l : List Char) :
    (l.takeWhile p).length + (l.dropWhile p).length = l.length := by
  rw [← List.length_append, List.takeWhile_append_dropWhile]

theorem mem_drop_parts (k : Nat) (p q : Char → Bool) (l : List Char) (c : Char)
    (hc : c ∈ l.drop k) :
    p c = true ∨ q c = true ∨ c ∈ ((l.drop k).dropWhile p).dropWhile q := by
  have hsplit := List.takeWhile_append_dropWhile p (l.drop k)
  rw [← hsplit] at hc
  rcases List.mem_append.mp hc with h1 | h1
  · exact Or.inl (List.mem_takeWhile_imp h1)
  · have hsplit2 := List.takeWhile_append_dropWhile q ((l.drop k).dropWhile p)
    rw [← hsplit2] at h1
    rcases List.mem_append.mp h1 with h2 | h2
    · exact Or.inr (Or.inl (List.mem_takeWhile_imp h2))
    · exact Or.inr (Or.inr h2)

theorem scan_stable (k : Nat) (p q : Char → Bool) (l t : List Char)
    (hle : k ≤ l.length)
    (hds : ((l.drop k).dropWhile p).takeWhile q ≠ [])
    (hr2 : ((l.drop k).dropWhile p).dropWhile q ≠ []) :
    (l ++ t).take k = l.take k ∧
    (((l ++ t).drop k).dropWhile p).takeWhile q = ((l.drop k).dropWhile p).takeWhile q ∧
    (((l ++ t).drop k).dropWhile p).dropWhile q = ((l.drop k).dropWhile p).dropWhile q ++ t := by
  have h1 : (l ++ t).take k = l.take k := List.take_append_of_le_length hle
  have hd : (l ++ t).drop k = l.drop k ++ t := List.drop_append_of_le_length hle
  have hr1 : (l.drop k).dropWhile p ≠ [] := by
    intro hnil
    rw [hnil] at hds
    exact hds rfl
  have h2 : ((l ++ t).drop k).dropWhile p = (l.drop k).dropWhile p ++ t := by
    rw [hd]
    exact dropWhile_append_of_ne_nil p _ t hr1
  refine ⟨h1, ?_, ?_⟩
  · rw [h2]
    exact takeWhile_append_of_dropWhile_ne_nil q _ t hr2
  · rw [h2]
    exact dropWhile_append_of_ne_nil q _ t hr2

theorem suffix_tail_length {α : Type} {sfx l : List α} {c : α} (h : sfx <:+ l) :
    sfx.length < (c :: l).length := by
  have := h.length_le
  simp only [List.length_cons]
  omega

theorem no_suffix_start_in (L sfx lit mid r3 : List Char) (kc : Char)
    (hdecomp : L = lit ++ mid ++ r3)
    (hsfx : sfx <:+ L) (hproper : sfx.length < L.length)
    (hlen3 : r3.length < sfx.length)
    (hhead : sfx.head? = some kc)
    (hmid : ∀ c2 ∈ mid, ¬ kc = c2)
    (hlit : ∀ b ∈ lit.tail, ¬ kc = b) : False := by
  rw [hdecomp] at hsfx hproper
  rw [List.length_append, List.length_append] at hproper
  exact no_suffix_start_anywhere hsfx hproper hlen3 hhead hmid hlit

theorem decomp_lit_rest (L : List Char) (k : Nat) (lit : List Char)
    (h : L.take k = lit) : L = lit ++ L.drop k := by
  conv_lhs => rw [← List.take_append_drop k L]
  rw [h]

theorem head_append_of_ne_nil {α : Type} (l t : List α) (h : l ≠ []) :
    (l ++ t).head? = l.head? := by
  cases l with
  | nil => exact absurd rfl h
  | cons a r => rfl

theorem findFirst_some_suffix {α : Type} (m : List Char → Option α) (s : List Char) (a : α)
    (h : findFirst m s = some a) : ∃ sfx, sfx <:+ s ∧ m sfx = some a := by
  induction s with
  | nil => exact ⟨[], List.suffix_refl _, h⟩
  | cons c rest ih =>
    cases hm : m (c :: rest) with
    | some a2 =>
      simp only [findFirst, hm] at h
      cases h
      exact ⟨c :: rest, List.suffix_refl _, hm⟩
    | none =>
      simp only [findFirst, hm] at h
      obtain ⟨sfx, hsfx, hmm⟩ := ih h
      exact ⟨sfx, hsfx.trans (List.suffix_cons c rest), hmm⟩

theorem findFirst_stable {α : Type} (m : List Char → Option α) (s t : List Char) (a : α)
    (h : findFirst m s = some a)
    (hext : ∀ l, l <:+ s → ∀ a2, m l = some a2 → m (l ++ t) = some a2)
    (hpersist : ∀ c l, (c :: l) <:+ s → m (c :: l) = none →
      (∃ sfx a2, sfx <:+ l ∧ m sfx = some a2) → m ((c :: l) ++ t) = none) :
    findFirst m (s ++ t) = some a := by
  induction s with
  | nil =>
    have h0 : m ([] : List Char) = some a := h
    have h1 := hext [] (List.suffix_refl _) a h0
    cases t with
    | nil => exact h0
    | cons c rest =>
      have h2 : m (c :: rest) = some a := h1
      simp only [List.nil_append, findFirst, h2]
  | cons c rest ih =>
    rw [List.cons_append]
    cases hm : m (c :: rest) with
    | some a2 =>
      simp only [findFirst, hm] at h
      cases h
      have h2 := hext (c :: rest) (List.suffix_refl _) _ hm
      rw [List.cons_append] at h2
      simp only [findFirst, h2]
    | none =>
      simp only [findFirst, hm] at h
      obtain ⟨sfx, hsfx, hmm⟩ := findFirst_some_suffix m rest a h
      have hp := hpersist c rest (List.suffix_refl _) hm ⟨sfx, a, hsfx, hmm⟩
      rw [List.cons_append] at hp
      simp only [findFirst, hp]
      exact ih h (fun l hl a2 hml => hext l (hl.trans (List.suffix_cons c rest)) a2 hml)
        (fun c2 l2 hl2 hm2 hex2 => hpersist c2 l2 (hl2.trans (List.suffix_cons c rest)) hm2 hex2)

theorem timeShape_some_length (v : List Char) (g : List Char × List Char × List Char)
    (h : timeShape v = some g) : v.length = 16 := by
  unfold timeShape at h
  split at h
  · simp
  · cases h

theorem matchTimeAt_append (l t : List Char) (g : List Char × List Char × List Char)
    (h : matchTimeAt l = some g) : matchTimeAt (l ++ t) = some g := by
  have h16 := timeShape_some_length (l.take 16) g h
  have hle : 16 ≤ l.length := by
    rw [List.length_take] at h16
    omega
  unfold matchTimeAt at h ⊢
  rw [List.take_append_of_le_length hle]
  exact h

theorem matchTimeAt_persist (c : Char) (l t : List Char)
    (h : matchTimeAt (c :: l) = none)
    (sfx : List Char) (g : List Char × List Char × List Char)
    (hsfx : sfx <:+ l) (hm : matchTimeAt sfx = some g) :
    matchTimeAt ((c :: l) ++ t) = none := by
  have h16 := timeShape_some_length (sfx.take 16) g hm
  have hle : 16 ≤ sfx.length := by
    rw [List.length_take] at h16
    omega
  have hle2 : 16 ≤ (c :: l).length := by
    have := hsfx.length_le
    simp only [List.length_cons]
    omega
  unfold matchTimeAt at h ⊢
  rw [List.take_append_of_le_length hle2]
  exact h

theorem matchSpeedAt_parts {l : List Char} {g : List Char}
    (h : matchSpeedAt l = some g) :
    l.take 6 = [ 's', 'p', 'e', 'e', 'd', '='] ∧
    ((l.drop 6).dropWhile wsChar).takeWhile numChar ≠ [] ∧
    (((l.drop 6).dropWhile wsChar).dropWhile numChar).head? = some 'x' ∧
    g = ((l.drop 6).dropWhile wsChar).takeWhile numChar := by
  unfold matchSpeedAt at h
  by_cases h1 : l.take 6 = [ 's', 'p', 'e', 'e', 'd', '=']
  · rw [if_pos h1] at h
    by_cases h2 : ((l.drop 6).dropWhile wsChar).takeWhile numChar = []
    · rw [if_pos h2] at h
      cases h
    · rw [if_neg h2] at h
      by_cases h3 : (((l.drop 6).dropWhile wsChar).dropWhile numChar).head? = some 'x'
      · rw [if_pos h3] at h
        exact ⟨h1, h2, h3, (Option.some.inj h).symm⟩
      · rw [if_neg h3] at h
        cases h
  · rw [if_neg h1] at h
    cases h

theorem matchSpeedAt_append (l t : List Char) (g : List Char)
    (h : matchSpeedAt l = some g) : matchSpeedAt (l ++ t) = some g := by
  obtain ⟨h1, h2, h3, hg⟩ := matchSpeedAt_parts h
  have hr2 : ((l.drop 6).dropWhile wsChar).dropWhile numChar ≠ [] := by
    intro hnil
    rw [hnil] at h3
    cases h3
  have hle : 6 ≤ l.length := take_eq_len_le h1 rfl
  obtain ⟨e1, e2, e3⟩ := scan_stable 6 wsChar numChar l t hle h2 hr2
  unfold matchSpeedAt
  rw [e1, if_pos h1, e2, if_neg h2, e3, head_append_of_ne_nil _ t hr2, if_pos h3, hg]

theorem matchSpeedAt_persist (c : Char) (l t : List Char)
    (h : matchSpeedAt (c :: l) = none)
    (sfx : List Char) (g : List Char)
    (hsfx : sfx <:+ l) (hm : matchSpeedAt sfx = some g) :
    matchSpeedAt ((c :: l) ++ t) = none := by
  obtain ⟨hs1, hs2, hs3, hsg⟩ := matchSpeedAt_parts hm
  have hshead : sfx.head? = some 's' := head?_of_take hs1 rfl
  have hslen : 6 ≤ sfx.length := take_eq_len_le hs1 rfl
  have hle2 : 6 ≤ (c :: l).length := by
    have := hsfx.length_le
    simp only [List.length_cons]
    omega
  have hsfxL : sfx <:+ (c :: l) := hsfx.trans (List.suffix_cons c l)
  have hproper : sfx.length < (c :: l).length := suffix_tail_length hsfx
  have hlen3 : ([] : List Char).length < sfx.length := by
    simp only [List.length_nil]
    omega
  unfold matchSpeedAt at h ⊢
  rw [List.take_append_of_le_length hle2]
  by_cases h1 : (c :: l).take 6 = [ 's', 'p', 'e', 'e', 'd', '=']
  · rw [if_pos h1] at h ⊢
    have hL : (c :: l) = [ 's', 'p', 'e', 'e', 'd', '='] ++ (c :: l).drop 6 :=
      decomp_lit_rest (c :: l) 6 _ h1
    have hd : ((c :: l) ++ t).drop 6 = (c :: l).drop 6 ++ t :=
      List.drop_append_of_le_length hle2
    by_cases h2 : (((c :: l).drop 6).dropWhile wsChar).takeWhile numChar = []
    · cases hr1 : ((c :: l).drop 6).dropWhile wsChar with
      | nil =>
        exfalso
        refine no_suffix_start_in (c :: l) sfx _ ((c :: l).drop 6) [] 's'
          (by rw [List.append_nil]; exact hL) hsfxL hproper hlen3 hshead ?_ (by decide)
        intro c2 hc2 he
        have hws := List.dropWhile_eq_nil_iff.mp hr1 c2 hc2
        rw [← he] at hws
        exact absurd hws (by decide)
      | cons ch r1t =>
        have hne : ((c :: l).drop 6).dropWhile wsChar ≠ [] := by
          rw [hr1]
          simp
        have he2 : (((c :: l) ++ t).drop 6).dropWhile wsChar = ch :: (r1t ++ t) := by
          rw [hd, dropWhile_append_of_ne_nil _ _ _ hne, hr1, List.cons_append]
        have hch : numChar ch = false := by
          rw [hr1, List.takeWhile_cons] at h2
          by_cases hb : numChar ch
          · rw [if_pos hb] at h2
            simp at h2
          · simpa using hb
        have hds2 : List.takeWhile numChar (ch :: (r1t ++ t)) = [] := by
          rw [List.takeWhile_cons, if_neg (by simp [hch])]
        rw [he2, hds2, if_pos rfl]
    · cases hr2 : (((c :: l).drop 6).dropWhile wsChar).dropWhile numChar with
      | nil =>
        exfalso
        refine no_suffix_start_in (c :: l) sfx _ ((c :: l).drop 6) [] 's'
          (by rw [List.append_nil]; exact hL) hsfxL hproper hlen3 hshead ?_ (by decide)
        intro c2 hc2 he
        rcases mem_drop_parts 6 wsChar numChar (c :: l) c2 hc2 with hw | hn | hmem
        · rw [← he] at hw
          exact absurd hw (by decide)
        · rw [← he] at hn
          exact absurd hn (by decide)
        · rw [hr2] at hmem
          exact absurd hmem (List.not_mem_nil c2)
      | cons c2 r2t =>
        have hr2ne : (((c :: l).drop 6).dropWhile wsChar).dropWhile numChar ≠ [] := by
          rw [hr2]
          simp
        obtain ⟨e1, e2, e3⟩ := scan_stable 6 wsChar numChar (c :: l) t hle2 h2 hr2ne
        rw [e2, if_neg h2, e3, head_append_of_ne_nil _ t hr2ne]
        rw [if_neg h2] at h
        by_cases h3 : ((((c :: l).drop 6).dropWhile wsChar).dropWhile numChar).head? = some 'x'
        · rw [if_pos h3] at h
          cases h
        · rw [if_neg h3]
  · rw [if_neg h1]

theorem matchFpsAt_parts {l : List Char} {g : List Char}
    (h : matchFpsAt l = some g) :
    l.take 4 = [ 'f', 'p', 's', '='] ∧
    ((l.drop 4).dropWhile wsChar).takeWhile numChar ≠ [] ∧
    g = ((l.drop 4).dropWhile wsChar).takeWhile numChar := by
  unfold matchFpsAt at h
  by_cases h1 : l.take 4 = [ 'f', 'p', 's', '=']
  · rw [if_pos h1] at h
    by_cases h2 : ((l.drop 4).dropWhile wsChar).takeWhile numChar = []
    · rw [if_pos h2] at h
      cases h
    · rw [if_neg h2] at h
      exact ⟨h1, h2, (Option.some.inj h).symm⟩
  · rw [if_neg h1] at h
    cases h

theorem matchFpsAt_append (l t : List Char) (g : List Char)
    (h : matchFpsAt l = some g)
    (hterm : ((l.drop 4).dropWhile wsChar).dropWhile numChar ≠ []) :
    matchFpsAt (l ++ t) = some g := by
  obtain ⟨h1, h2, hg⟩ := matchFpsAt_parts h
  have hle : 4 ≤ l.length := take_eq_len_le h1 rfl
  obtain ⟨e1, e2, e3⟩ := scan_stable 4 wsChar numChar l t hle h2 hterm
  unfold matchFpsAt
  rw [e1, if_pos h1, e2, if_neg h2, hg]

theorem matchFpsAt_persist (c : Char) (l t : List Char)
    (h : matchFpsAt (c :: l) = none)
    (sfx : List Char) (g : List Char)
    (hsfx : sfx <:+ l) (hm : matchFpsAt sfx = some g) :
    matchFpsAt ((c :: l) ++ t) = none := by
  obtain ⟨hs1, hs2, hsg⟩ := matchFpsAt_parts hm
  have hshead : sfx.head? = some 'f' := head?_of_take hs1 rfl
  have hslen : 4 ≤ sfx.length := take_eq_len_le hs1 rfl
  have hle2 : 4 ≤ (c :: l).length := by
    have := hsfx.length_le
    simp only [List.length_cons]
    omega
  have hsfxL : sfx <:+ (c :: l) := hsfx.trans (List.suffix_cons c l)
  have hproper : sfx.length < (c :: l).length := suffix_tail_length hsfx
  have hlen3 : ([] : List Char).length < sfx.length := by
    simp only [List.length_nil]
    omega
  unfold matchFpsAt at h ⊢
  rw [List.take_append_of_le_length hle2]
  by_cases h1 : (c :: l).take 4 = [ 'f', 'p', 's', '=']
  · rw [if_pos h1] at h ⊢
    have hL : (c :: l) = [ 'f', 'p', 's', '='] ++ (c :: l).drop 4 :=
      decomp_lit_rest (c :: l) 4 _ h1
    have hd : ((c :: l) ++ t).drop 4 = (c :: l).drop 4 ++ t :=
      List.drop_append_of_le_length hle2
    by_cases h2 : (((c :: l).drop 4).dropWhile wsChar).takeWhile numChar = []
    · cases hr1 : ((c :: l).drop 4).dropWhile wsChar with
      | nil =>
        exfalso
        refine no_suffix_start_in (c :: l) sfx _ ((c :: l).drop 4) [] 'f'
          (by rw [List.append_nil]; exact hL) hsfxL hproper hlen3 hshead ?_ (by decide)
        intro c2 hc2 he
        have hws := List.dropWhile_eq_nil_iff.mp hr1 c2 hc2
        rw [← he] at hws
        exact absurd hws (by decide)
      | cons ch r1t =>
        have hne : ((c :: l).drop 4).dropWhile wsChar ≠ [] := by
          rw [hr1]
          simp
        have he2 : (((c :: l) ++ t).drop 4).dropWhile wsChar = ch :: (r1t ++ t) := by
          rw [hd, dropWhile_append_of_ne_nil _ _ _ hne, hr1, List.cons_append]
        have hch : numChar ch = false := by
          rw [hr1, List.takeWhile_cons] at h2
          by_cases hb : numChar ch
          · rw [if_pos hb] at h2
            simp at h2
          · simpa using hb
        have hds2 : List.takeWhile numChar (ch :: (r1t ++ t)) = [] := by
          rw [List.takeWhile_cons, if_neg (by simp [hch])]
        rw [he2, hds2, if_pos rfl]
    · rw [if_neg h2] at h
      cases h
  · rw [if_neg h1]

theorem matchBitrateAt_parts {l : List Char} {g : List Char}
    (h : matchBitrateAt l = some g) :
    l.take 8 = [ 'b', 'i', 't', 'r', 'a', 't', 'e', '='] ∧
    ((l.drop 8).dropWhile wsChar).takeWhile numChar ≠ [] ∧
    (((((l.drop 8).dropWhile wsChar).dropWhile numChar).head? = some 'k' ∨
      (((l.drop 8).dropWhile wsChar).dropWhile numChar).head? = some 'm' ∨
      (((l.drop 8).dropWhile wsChar).dropWhile numChar).head? = some 'g') ∧
     ((((l.drop 8).dropWhile wsChar).dropWhile numChar).drop 1).take 6 =
       [ 'b', 'i', 't', 's', '/', 's'] ∧
     g = ((l.drop 8).dropWhile wsChar).takeWhile numChar ++
       (((l.drop 8).dropWhile wsChar).dropWhile numChar).take 1 ++
       [ 'b', 'i', 't', 's', '/', 's'] ∨
     ¬((((l.drop 8).dropWhile wsChar).dropWhile numChar).head? = some 'k' ∨
       (((l.drop 8).dropWhile wsChar).dropWhile numChar).head? = some 'm' ∨
       (((l.drop 8).dropWhile wsChar).dropWhile numChar).head? = some 'g') ∧
     (((l.drop 8).dropWhile wsChar).dropWhile numChar).take 6 =
       [ 'b', 'i', 't', 's', '/', 's'] ∧
     g = ((l.drop 8).dropWhile wsChar).takeWhile numChar ++ [ 'b', 'i', 't', 's', '/', 's']) := by
  unfold matchBitrateAt at h
  by_cases h1 : l.take 8 = [ 'b', 'i', 't', 'r', 'a', 't', 'e', '=']
  · rw [if_pos h1] at h
    by_cases h2 : ((l.drop 8).dropWhile wsChar).takeWhile numChar = []
    · rw [if_pos h2] at h
      cases h
    · rw [if_neg h2] at h
      by_cases hk : (((l.drop 8).dropWhile wsChar).dropWhile numChar).head? = some 'k' ∨
          (((l.drop 8).dropWhile wsChar).dropWhile numChar).head? = some 'm' ∨
          (((l.drop 8).dropWhile wsChar).dropWhile numChar).head? = some 'g'
      · rw [if_pos hk] at h
        by_cases h6 : ((((l.drop 8).dropWhile wsChar).dropWhile numChar).drop 1).take 6 =
            [ 'b', 'i', 't', 's', '/', 's']
        · rw [if_pos h6] at h
          exact ⟨h1, h2, Or.inl ⟨hk, h6, (Option.some.inj h).symm⟩⟩
        · rw [if_neg h6] at h
          cases h
      · rw [if_neg hk] at h
        by_cases h6 : (((l.drop 8).dropWhile wsChar).dropWhile numChar).take 6 =
            [ 'b', 'i', 't', 's', '/', 's']
        · rw [if_pos h6] at h
          exact ⟨h1, h2, Or.inr ⟨hk, h6, (Option.some.inj h).symm⟩⟩
        · rw [if_neg h6] at h
          cases h
  · rw [if_neg h1] at h
    cases h

theorem matchBitrateAt_minLen {l : List Char} {g : List Char}
    (h : matchBitrateAt l = some g) : 15 ≤ l.length := by
  obtain ⟨h1, h2, h3⟩ := matchBitrateAt_parts h
  have hle : 8 ≤ l.length := take_eq_len_le h1 rfl
  have hlds : 0 < (((l.drop 8).dropWhile wsChar).takeWhile numChar).length :=
    List.length_pos.mpr h2
  have e0 : (l.drop 8).length = l.length - 8 := by rw [List.length_drop]
  have e1 := length_takeWhile_add wsChar (l.drop 8)
  have e2 := length_takeWhile_add numChar ((l.drop 8).dropWhile wsChar)
  rcases h3 with ⟨hk, h6, hg⟩ | ⟨hk, h6, hg⟩
  · have h6l : 6 ≤ ((((l.drop 8).dropWhile wsChar).dropWhile numChar).drop 1).length :=
      take_eq_len_le h6 rfl
    have e3 : ((((l.drop 8).dropWhile wsChar).dropWhile numChar).drop 1).length =
        (((l.drop 8).dropWhile wsChar).dropWhile numChar).length - 1 := by
      rw [List.length_drop]
    omega
  · have h6l : 6 ≤ (((l.drop 8).dropWhile wsChar).dropWhile numChar).length :=
      take_eq_len_le h6 rfl
    omega

theorem matchBitrateAt_append (l t : List Char) (g : List Char)
    (h : matchBitrateAt l = some g) : matchBitrateAt (l ++ t) = some g := by
  obtain ⟨h1, h2, h3⟩ := matchBitrateAt_parts h
  have hle : 8 ≤ l.length := take_eq_len_le h1 rfl
  have hr2ne : ((l.drop 8).dropWhile wsChar).dropWhile numChar ≠ [] := by
    rcases h3 with ⟨hk, h6, hg⟩ | ⟨hk, h6, hg⟩
    · rcases hk with hh | hh | hh <;>
        (intro hnil; rw [hnil] at hh; cases hh)
    · intro hnil
      rw [hnil] at h6
      simp at h6
  obtain ⟨e1, e2, e3⟩ := scan_stable 8 wsChar numChar l t hle h2 hr2ne
  have hle1 : 1 ≤ (((l.drop 8).dropWhile wsChar).dropWhile numChar).length := by
    have := List.length_pos.mpr hr2ne
    omega
  have ed : (((l.drop 8).dropWhile wsChar).dropWhile numChar ++ t).drop 1 =
      (((l.drop 8).dropWhile wsChar).dropWhile numChar).drop 1 ++ t :=
    List.drop_append_of_le_length hle1
  have et1 : (((l.drop 8).dropWhile wsChar).dropWhile numChar ++ t).take 1 =
      (((l.drop 8).dropWhile wsChar).dropWhile numChar).take 1 :=
    List.take_append_of_le_length hle1
  unfold matchBitrateAt
  rw [e1, if_pos h1, e2, if_neg h2, e3, head_append_of_ne_nil _ t hr2ne]
  rcases h3 with ⟨hk, h6, hg⟩ | ⟨hk, h6, hg⟩
  · rw [if_pos hk, ed]
    have h6l : 6 ≤ ((((l.drop 8).dropWhile wsChar).dropWhile numChar).drop 1).length :=
      take_eq_len_le h6 rfl
    rw [List.take_append_of_le_length h6l, if_pos h6, et1, hg]
  · rw [if_neg hk]
    have h6l : 6 ≤ (((l.drop 8).dropWhile wsChar).dropWhile numChar).length :=
      take_eq_len_le h6 rfl
    rw [List.take_append_of_le_length h6l, if_pos h6, hg]

theorem matchBitrateAt_persist (c : Char) (l t : List Char)
    (h : matchBitrateAt (c :: l) = none)
    (sfx : List Char) (g : List Char)
    (hsfx : sfx <:+ l) (hm : matchBitrateAt sfx = some g) :
    matchBitrateAt ((c :: l) ++ t) = none := by
  obtain ⟨hs1, hs2, hs3⟩ := matchBitrateAt_parts hm
  have hshead : sfx.head? = some 'b' := head?_of_take hs1 rfl
  have hslen : 15 ≤ sfx.length := matchBitrateAt_minLen hm
  have hle2 : 8 ≤ (c :: l).length := by
    have := hsfx.length_le
    simp only [List.length_cons]
    omega
  have hsfxL : sfx <:+ (c :: l) := hsfx.trans (List.suffix_cons c l)
  have hproper : sfx.length < (c :: l).length := suffix_tail_length hsfx
  unfold matchBitrateAt at h ⊢
  rw [List.take_append_of_le_length hle2]
  by_cases h1 : (c :: l).take 8 = [ 'b', 'i', 't', 'r', 'a', 't', 'e', '=']
  case neg => rw [if_neg h1]
  rw [if_pos h1] at h ⊢
  have hL : (c :: l) = [ 'b', 'i', 't', 'r', 'a', 't', 'e', '='] ++ (c :: l).drop 8 :=
    decomp_lit_rest (c :: l) 8 _ h1
  have hd : ((c :: l) ++ t).drop 8 = (c :: l).drop 8 ++ t :=
    List.drop_append_of_le_length hle2
  by_cases h2 : (((c :: l).drop 8).dropWhile wsChar).takeWhile numChar = []
  · cases hr1 : ((c :: l).drop 8).dropWhile wsChar with
    | nil =>
      exfalso
      refine no_suffix_start_in (c :: l) sfx _ ((c :: l).drop 8) [] 'b'
        (by rw [List.append_nil]; exact hL) hsfxL hproper
        (by simp only [List.length_nil]; omega) hshead ?_ (by decide)
      intro c2 hc2 he
      have hws := List.dropWhile_eq_nil_iff.mp hr1 c2 hc2
      rw [← he] at hws
      exact absurd hws (by decide)
    | cons ch r1t =>
      have hne : ((c :: l).drop 8).dropWhile wsChar ≠ [] := by
        rw [hr1]
        simp
      have he2 : (((c :: l) ++ t).drop 8).dropWhile wsChar = ch :: (r1t ++ t) := by
        rw [hd, dropWhile_append_of_ne_nil _ _ _ hne, hr1, List.cons_append]
      have hch : numChar ch = false := by
        rw [hr1, List.takeWhile_cons] at h2
        by_cases hb : numChar ch
        · rw [if_pos hb] at h2
          simp at h2
        · simpa using hb
      have hds2 : List.takeWhile numChar (ch :: (r1t ++ t)) = [] := by
        rw [List.takeWhile_cons, if_neg (by simp [hch])]
      rw [he2, hds2, if_pos rfl]
  · rw [if_neg h2] at h
    cases hr2 : (((c :: l).drop 8).dropWhile wsChar).dropWhile numChar with
    | nil =>
      exfalso
      refine no_suffix_start_in (c :: l) sfx _ ((c :: l).drop 8) [] 'b'
        (by rw [List.append_nil]; exact hL) hsfxL hproper
        (by simp only [List.length_nil]; omega) hshead ?_ (by decide)
      intro c2 hc2 he
      rcases mem_drop_parts 8 wsChar numChar (c :: l) c2 hc2 with hw | hn | hmem
      · rw [← he] at hw
        exact absurd hw (by decide)
      · rw [← he] at hn
        exact absurd hn (by decide)
      · rw [hr2] at hmem
        exact absurd hmem (List.not_mem_nil c2)
    | cons c2 r2t =>
      have hr2ne : (((c :: l).drop 8).dropWhile wsChar).dropWhile numChar ≠ [] := by
        rw [hr2]
        simp
      obtain ⟨e1, e2, e3⟩ := scan_stable 8 wsChar numChar (c :: l) t hle2 h2 hr2ne
      rw [e2, if_neg h2, e3, head_append_of_ne_nil _ t hr2ne]
      have hle1 : 1 ≤ ((((c :: l).drop 8).dropWhile wsChar).dropWhile numChar).length := by
        rw [hr2]
        simp
      have ed : ((((c :: l).drop 8).dropWhile wsChar).dropWhile numChar ++ t).drop 1 =
          ((((c :: l).drop 8).dropWhile wsChar).dropWhile numChar).drop 1 ++ t :=
        List.drop_append_of_le_length hle1
      by_cases hk : ((((c :: l).drop 8).dropWhile wsChar).dropWhile numChar).head? = some 'k' ∨
          ((((c :: l).drop 8).dropWhile wsChar).dropWhile numChar).head? = some 'm' ∨
          ((((c :: l).drop 8).dropWhile wsChar).dropWhile numChar).head? = some 'g'
      · rw [if_pos hk] at h ⊢
        rw [ed]
        by_cases h6 : 6 ≤ (((((c :: l).drop 8).dropWhile wsChar).dropWhile numChar).drop 1).length
        · rw [List.take_append_of_le_length h6]
          by_cases h7 : (((((c :: l).drop 8).dropWhile wsChar).dropWhile numChar).drop 1).take 6 =
              [ 'b', 'i', 't', 's', '/', 's']
          · rw [if_pos h7] at h
            cases h
          · rw [if_neg h7]
        · exfalso
          have hA := List.takeWhile_append_dropWhile wsChar ((c :: l).drop 8)
          have hB := List.takeWhile_append_dropWhile numChar (((c :: l).drop 8).dropWhile wsChar)
          have hC := List.take_append_drop 1 ((((c :: l).drop 8).dropWhile wsChar).dropWhile numChar)
          refine no_suffix_start_in (c :: l) sfx [ 'b', 'i', 't', 'r', 'a', 't', 'e', '=']
            (((c :: l).drop 8).takeWhile wsChar ++
              ((((c :: l).drop 8).dropWhile wsChar).takeWhile numChar ++
                ((((c :: l).drop 8).dropWhile wsChar).dropWhile numChar).take 1))
            (((((c :: l).drop 8).dropWhile wsChar).dropWhile numChar).drop 1) 'b'
            ?_ hsfxL hproper (by omega) hshead ?_ (by decide)
          · rw [List.append_assoc, List.append_assoc, List.append_assoc, hC, hB, hA, ← hL]
          · intro c2b hc2 he
            rcases List.mem_append.mp hc2 with hw | hbc
            · have hx := List.mem_takeWhile_imp hw
              rw [← he] at hx
              exact absurd hx (by decide)
            · rcases List.mem_append.mp hbc with hn | ht1
              · have hx := List.mem_takeWhile_imp hn
                rw [← he] at hx
                exact absurd hx (by decide)
              · rcases hk with hh | hh | hh <;>
                · rw [take_one_of_head? hh, List.mem_singleton] at ht1
                  exact absurd (he.trans ht1) (by decide)
      · rw [if_neg hk] at h ⊢
        by_cases h6 : 6 ≤ ((((c :: l).drop 8).dropWhile wsChar).dropWhile numChar).length
        · rw [List.take_append_of_le_length h6]
          by_cases h7 : ((((c :: l).drop 8).dropWhile wsChar).dropWhile numChar).take 6 =
              [ 'b', 'i', 't', 's', '/', 's']
          · rw [if_pos h7] at h
            cases h
          · rw [if_neg h7]
        · exfalso
          have hA := List.takeWhile_append_dropWhile wsChar ((c :: l).drop 8)
          have hB := List.takeWhile_append_dropWhile numChar (((c :: l).drop 8).dropWhile wsChar)
          refine no_suffix_start_in (c :: l) sfx [ 'b', 'i', 't', 'r', 'a', 't', 'e', '=']
            (((c :: l).drop 8).takeWhile wsChar ++
              (((c :: l).drop 8).dropWhile wsChar).takeWhile numChar)
            ((((c :: l).drop 8).dropWhile wsChar).dropWhile numChar) 'b'
            ?_ hsfxL hproper (by omega) hshead ?_ (by decide)
          · rw [List.append_assoc, List.append_assoc, hB, hA, ← hL]
          · intro c2b hc2 he
            rcases List.mem_append.mp hc2 with hw | hn
            · have hx := List.mem_takeWhile_imp hw
              rw [← he] at hx
              exact absurd hx (by decide)
            · have hx := List.mem_takeWhile_imp hn
              rw [← he] at hx
              exact absurd hx (by decide)

theorem matchSizeAt_parts {l : List Char} {g : List Char}
    (h : matchSizeAt l = some g) :
    l.take 5 = [ 's', 'i', 'z', 'e', '='] ∧
    ((l.drop 5).dropWhile wsChar).takeWhile Char.isDigit ≠ [] ∧
    (((((l.drop 5).dropWhile wsChar).dropWhile Char.isDigit).head? = some 'k' ∨
      (((l.drop 5).dropWhile wsChar).dropWhile Char.isDigit).head? = some 'm' ∨
      (((l.drop 5).dropWhile wsChar).dropWhile Char.isDigit).head? = some 'g') ∧
     ((((l.drop 5).dropWhile wsChar).dropWhile Char.isDigit).drop 1).head? = some 'B' ∧
     g = ((l.drop 5).dropWhile wsChar).takeWhile Char.isDigit ++
       (((l.drop 5).dropWhile wsChar).dropWhile Char.isDigit).take 1 ++ [ 'B'] ∨
     ¬((((l.drop 5).dropWhile wsChar).dropWhile Char.isDigit).head? = some 'k' ∨
       (((l.drop 5).dropWhile wsChar).dropWhile Char.isDigit).head? = some 'm' ∨
       (((l.drop 5).dropWhile wsChar).dropWhile Char.isDigit).head? = some 'g') ∧
     (((l.drop 5).dropWhile wsChar).dropWhile Char.isDigit).head? = some 'B' ∧
     g = ((l.drop 5).dropWhile wsChar).takeWhile Char.isDigit ++ [ 'B']) := by
  unfold matchSizeAt at h
  by_cases h1 : l.take 5 = [ 's', 'i', 'z', 'e', '=']
  · rw [if_pos h1] at h
    by_cases h2 : ((l.drop 5).dropWhile wsChar).takeWhile Char.isDigit = []
    · rw [if_pos h2] at h
      cases h
    · rw [if_neg h2] at h
      by_cases hk : (((l.drop 5).dropWhile wsChar).dropWhile Char.isDigit).head? = some 'k' ∨
          (((l.drop 5).dropWhile wsChar).dropWhile Char.isDigit).head? = some 'm' ∨
          (((l.drop 5).dropWhile wsChar).dropWhile Char.isDigit).head? = some 'g'
      · rw [if_pos hk] at h
        by_cases h6 : ((((l.drop 5).dropWhile wsChar).dropWhile Char.isDigit).drop 1).head? =
            some 'B'
        · rw [if_pos h6] at h
          exact ⟨h1, h2, Or.inl ⟨hk, h6, (Option.some.inj h).symm⟩⟩
        · rw [if_neg h6] at h
          cases h
      · rw [if_neg hk] at h
        by_cases h6 : (((l.drop 5).dropWhile wsChar).dropWhile Char.isDigit).head? = some 'B'
        · rw [if_pos h6] at h
          exact ⟨h1, h2, Or.inr ⟨hk, h6, (Option.some.inj h).symm⟩⟩
        · rw [if_neg h6] at h
          cases h
  · rw [if_neg h1] at h
    cases h

theorem matchSizeAt_append (l t : List Char) (g : List Char)
    (h : matchSizeAt l = some g) : matchSizeAt (l ++ t) = some g := by
  obtain ⟨h1, h2, h3⟩ := matchSizeAt_parts h
  have hle : 5 ≤ l.length := take_eq_len_le h1 rfl
  have hr2ne : ((l.drop 5).dropWhile wsChar).dropWhile Char.isDigit ≠ [] := by
    rcases h3 with ⟨hk, h6, hg⟩ | ⟨hk, h6, hg⟩
    · rcases hk with hh | hh | hh <;>
        (intro hnil; rw [hnil] at hh; cases hh)
    · intro hnil
      rw [hnil] at h6
      cases h6
  obtain ⟨e1, e2, e3⟩ := scan_stable 5 wsChar Char.isDigit l t hle h2 hr2ne
  have hle1 : 1 ≤ (((l.drop 5).dropWhile wsChar).dropWhile Char.isDigit).length := by
    have := List.length_pos.mpr hr2ne
    omega
  have ed : (((l.drop 5).dropWhile wsChar).dropWhile Char.isDigit ++ t).drop 1 =
      (((l.drop 5).dropWhile wsChar).dropWhile Char.isDigit).drop 1 ++ t :=
    List.drop_append_of_le_length hle1
  have et1 : (((l.drop 5).dropWhile wsChar).dropWhile Char.isDigit ++ t).take 1 =
      (((l.drop 5).dropWhile wsChar).dropWhile Char.isDigit).take 1 :=
    List.take_append_of_le_length hle1
  unfold matchSizeAt
  rw [e1, if_pos h1, e2, if_neg h2, e3, head_append_of_ne_nil _ t hr2ne]
  rcases h3 with ⟨hk, h6, hg⟩ | ⟨hk, h6, hg⟩
  · rw [if_pos hk, ed]
    have hdne : (((l.drop 5).dropWhile wsChar).dropWhile Char.isDigit).drop 1 ≠ [] := by
      intro hnil
      rw [hnil] at h6
      cases h6
    rw [head_append_of_ne_nil _ t hdne, if_pos h6, et1, hg]
  · rw [if_neg hk, if_pos h6, hg]

theorem matchSizeAt_persist (c : Char) (l t : List Char)
    (h : matchSizeAt (c :: l) = none)
    (sfx : List Char) (g : List Char)
    (hsfx : sfx <:+ l) (hm : matchSizeAt sfx = some g) :
    matchSizeAt ((c :: l) ++ t) = none := by
  obtain ⟨hs1, hs2, hs3⟩ := matchSizeAt_parts hm
  have hshead : sfx.head? = some 's' := head?_of_take hs1 rfl
  have hslen : 5 ≤ sfx.length := take_eq_len_le hs1 rfl
  have hle2 : 5 ≤ (c :: l).length := by
    have := hsfx.length_le
    simp only [List.length_cons]
    omega
  have hsfxL : sfx <:+ (c :: l) := hsfx.trans (List.suffix_cons c l)
  have hproper : sfx.length < (c :: l).length := suffix_tail_length hsfx
  unfold matchSizeAt at h ⊢
  rw [List.take_append_of_le_length hle2]
  by_cases h1 : (c :: l).take 5 = [ 's', 'i', 'z', 'e', '=']
  case neg => rw [if_neg h1]
  rw [if_pos h1] at h ⊢
  have hL : (c :: l) = [ 's', 'i', 'z', 'e', '='] ++ (c :: l).drop 5 :=
    decomp_lit_rest (c :: l) 5 _ h1
  have hd : ((c :: l) ++ t).drop 5 = (c :: l).drop 5 ++ t :=
    List.drop_append_of_le_length hle2
  by_cases h2 : (((c :: l).drop 5).dropWhile wsChar).takeWhile Char.isDigit = []
  · cases hr1 : ((c :: l).drop 5).dropWhile wsChar with
    | nil =>
      exfalso
      refine no_suffix_start_in (c :: l) sfx _ ((c :: l).drop 5) [] 's'
        (by rw [List.append_nil]; exact hL) hsfxL hproper
        (by simp only [List.length_nil]; omega) hshead ?_ (by decide)
      intro c2 hc2 he
      have hws := List.dropWhile_eq_nil_iff.mp hr1 c2 hc2
      rw [← he] at hws
      exact absurd hws (by decide)
    | cons ch r1t =>
      have hne : ((c :: l).drop 5).dropWhile wsChar ≠ [] := by
        rw [hr1]
        simp
      have he2 : (((c :: l) ++ t).drop 5).dropWhile wsChar = ch :: (r1t ++ t) := by
        rw [hd, dropWhile_append_of_ne_nil _ _ _ hne, hr1, List.cons_append]
      have hch : Char.isDigit ch = false := by
        rw [hr1, List.takeWhile_cons] at h2
        by_cases hb : Char.isDigit ch
        · rw [if_pos hb] at h2
          simp at h2
        · simpa using hb
      have hds2 : List.takeWhile Char.isDigit (ch :: (r1t ++ t)) = [] := by
        rw [List.takeWhile_cons, if_neg (by simp [hch])]
      rw [he2, hds2, if_pos rfl]
  · rw [if_neg h2] at h
    cases hr2 : (((c :: l).drop 5).dropWhile wsChar).dropWhile Char.isDigit with
    | nil =>
      exfalso
      refine no_suffix_start_in (c :: l) sfx _ ((c :: l).drop 5) [] 's'
        (by rw [List.append_nil]; exact hL) hsfxL hproper
        (by simp only [List.length_nil]; omega) hshead ?_ (by decide)
      intro c2 hc2 he
      rcases mem_drop_parts 5 wsChar Char.isDigit (c :: l) c2 hc2 with hw | hn | hmem
      · rw [← he] at hw
        exact absurd hw (by decide)
      · rw [← he] at hn
        exact absurd hn (by decide)
      · rw [hr2] at hmem
        exact absurd hmem (List.not_mem_nil c2)
    | cons c2 r2t =>
      have hr2ne : (((c :: l).drop 5).dropWhile wsChar).dropWhile Char.isDigit ≠ [] := by
        rw [hr2]
        simp
      obtain ⟨e1, e2, e3⟩ := scan_stable 5 wsChar Char.isDigit (c :: l) t hle2 h2 hr2ne
      rw [e2, if_neg h2, e3, head_append_of_ne_nil _ t hr2ne]
      by_cases hk : ((((c :: l).drop 5).dropWhile wsChar).dropWhile Char.isDigit).head? = some 'k' ∨
          ((((c :: l).drop 5).dropWhile wsChar).dropWhile Char.isDigit).head? = some 'm' ∨
          ((((c :: l).drop 5).dropWhile wsChar).dropWhile Char.isDigit).head? = some 'g'
      · rw [if_pos hk] at h ⊢
        have hle1 : 1 ≤ ((((c :: l).drop 5).dropWhile wsChar).dropWhile Char.isDigit).length := by
          rw [hr2]
          simp
        have ed : ((((c :: l).drop 5).dropWhile wsChar).dropWhile Char.isDigit ++ t).drop 1 =
            ((((c :: l).drop 5).dropWhile wsChar).dropWhile Char.isDigit).drop 1 ++ t :=
          List.drop_append_of_le_length hle1
        rw [ed]
        cases hd1 : ((((c :: l).drop 5).dropWhile wsChar).dropWhile Char.isDigit).drop 1 with
        | nil =>
          exfalso
          have hr2single : (((c :: l).drop 5).dropWhile wsChar).dropWhile Char.isDigit = [c2] := by
            rw [hr2]
            rw [hr2] at hd1
            simp only [List.drop_succ_cons, List.drop_zero] at hd1
            rw [hd1]
          refine no_suffix_start_in (c :: l) sfx _ ((c :: l).drop 5) [] 's'
            (by rw [List.append_nil]; exact hL) hsfxL hproper
            (by simp only [List.length_nil]; omega) hshead ?_ (by decide)
          intro c3 hc3 he
          rcases mem_drop_parts 5 wsChar Char.isDigit (c :: l) c3 hc3 with hw | hn | hmem
          · rw [← he] at hw
            exact absurd hw (by decide)
          · rw [← he] at hn
            exact absurd hn (by decide)
          · rw [hr2single, List.mem_singleton] at hmem
            rw [hr2single] at hk
            simp only [List.head?_cons] at hk
            rcases hk with hh | hh | hh <;>
            · rw [Option.some.inj hh] at hmem
              exact absurd (he.trans hmem) (by decide)
        | cons d dt =>
          rw [hd1] at h
          simp only [List.cons_append, List.head?_cons] at h ⊢
          by_cases hB : some d = some 'B'
          · rw [if_pos hB] at h
            cases h
          · rw [if_neg hB]
      · rw [if_neg hk] at h ⊢
        by_cases h7 : ((((c :: l).drop 5).dropWhile wsChar).dropWhile Char.isDigit).head? = some 'B'
        · rw [if_pos h7] at h
          cases h
        · rw [if_neg h7]

/-- C10: the supervisor accumulates all stderr of a spawned process into one
    growing buffer and `parseProgress` re-runs its five first-match
    (non-global) regexes on that whole buffer on each chunk; once the buffer
    holds a complete progress record (all five fields match, the fps digits
    closed inside the buffer), appending any further chunk leaves all five
    reported values, and the progress percentage derived from the time
    field, exactly those of the earliest record in the stream — they never
    advance to later records. -/
theorem c10_first_record_sticks (s0 : JM) (K : Nat) (id chunk : String)
    (job : ActiveJob)
    (tg : List Char × List Char × List Char) (sp fp br sz : List Char)
    (hget : mapGet s0.activeJobs id = some job)
    (hsp : job.spawned = true) (hcl : job.procClosed = false)
    (ht : findFirst matchTimeAt job.stderrBuf.toList = some tg)
    (hs : findFirst matchSpeedAt job.stderrBuf.toList = some sp)
    (hf : findFirst matchFpsAt job.stderrBuf.toList = some fp)
    (hb : findFirst matchBitrateAt job.stderrBuf.toList = some br)
    (hz : findFirst matchSizeAt job.stderrBuf.toList = some sz)
    (hfc : fpsComplete job.stderrBuf.toList) :
    parseProgressFields (job.stderrBuf ++ chunk) = parseProgressFields job.stderrBuf ∧
    parseProgressFields (job.stderrBuf ++ chunk) =
      { time := some tg, speed := some sp, fps := some fp,
        bitrate := some br, size := some sz } ∧
    mapGet (step K s0 (Ev.stderrData id chunk)).activeJobs id =
      some { job with stderrBuf := job.stderrBuf ++ chunk,
                      progress := progressFromTime tg } := by
  have hbl : (job.stderrBuf ++ chunk).toList = job.stderrBuf.toList ++ chunk.toList := by
    simp [String.toList]
  have st : findFirst matchTimeAt (job.stderrBuf.toList ++ chunk.toList) = some tg :=
    findFirst_stable matchTimeAt job.stderrBuf.toList chunk.toList tg ht
      (fun l _ a2 hm2 => matchTimeAt_append l chunk.toList a2 hm2)
      (fun c l _ hn hex => by
        obtain ⟨sfx, a2, hs2, hm2⟩ := hex
        exact matchTimeAt_persist c l chunk.toList hn sfx a2 hs2 hm2)
  have ss : findFirst matchSpeedAt (job.stderrBuf.toList ++ chunk.toList) = some sp :=
    findFirst_stable matchSpeedAt job.stderrBuf.toList chunk.toList sp hs
      (fun l _ a2 hm2 => matchSpeedAt_append l chunk.toList a2 hm2)
      (fun c l _ hn hex => by
        obtain ⟨sfx, a2, hs2, hm2⟩ := hex
        exact matchSpeedAt_persist c l chunk.toList hn sfx a2 hs2 hm2)
  have sf : findFirst matchFpsAt (job.stderrBuf.toList ++ chunk.toList) = some fp :=
    findFirst_stable matchFpsAt job.stderrBuf.toList chunk.toList fp hf
      (fun l hl a2 hm2 =>
        matchFpsAt_append l chunk.toList a2 hm2
          (hfc l ((List.mem_tails l job.stderrBuf.toList).mpr hl) (by rw [hm2]; simp)))
      (fun c l _ hn hex => by
        obtain ⟨sfx, a2, hs2, hm2⟩ := hex
        exact matchFpsAt_persist c l chunk.toList hn sfx a2 hs2 hm2)
  have sb : findFirst matchBitrateAt (job.stderrBuf.toList ++ chunk.toList) = some br :=
    findFirst_stable matchBitrateAt job.stderrBuf.toList chunk.toList br hb
      (fun l _ a2 hm2 => matchBitrateAt_append l chunk.toList a2 hm2)
      (fun c l _ hn hex => by
        obtain ⟨sfx, a2, hs2, hm2⟩ := hex
        exact matchBitrateAt_persist c l chunk.toList hn sfx a2 hs2 hm2)
  have sz2 : findFirst matchSizeAt (job.stderrBuf.toList ++ chunk.toList) = some sz :=
    findFirst_stable matchSizeAt job.stderrBuf.toList chunk.toList sz hz
      (fun l _ a2 hm2 => matchSizeAt_append l chunk.toList a2 hm2)
      (fun c l _ hn hex => by
        obtain ⟨sfx, a2, hs2, hm2⟩ := hex
        exact matchSizeAt_persist c l chunk.toList hn sfx a2 hs2 hm2)
  have hrec : parseProgressFields (job.stderrBuf ++ chunk) =
      { time := some tg, speed := some sp, fps := some fp,
        bitrate := some br, size := some sz } := by
    unfold parseProgressFields
    rw [hbl, st, ss, sf, sb, sz2]
  have hppf : parseProgressFields (job.stderrBuf ++ chunk) =
      parseProgressFields job.stderrBuf := by
    rw [hrec]
    unfold parseProgressFields
    rw [ht, hs, hf, hb, hz]
  have htime : (parseProgressFields (job.stderrBuf ++ chunk)).time = some tg := by
    rw [hrec]
  refine ⟨hppf, hrec, ?_⟩
  rw [step_stderr_eq K s0 id chunk job hget hsp hcl]
  simp only [stderrDataJob, hget]
  rw [mapGet_set_self]
  simp only [appendChunk, htime]

/-- C10 witness: with the concrete one-record buffer and a second-record
    chunk, all five parsed fields and the stored progress stay those of the
    first record. -/
theorem c10_first_record_sticks_witness :
    parseProgressFields (c10Job.stderrBuf ++ c10Chunk) =
      parseProgressFields c10Job.stderrBuf ∧
    parseProgressFields (c10Job.stderrBuf ++ c10Chunk) =
      { time := some c10Tg, speed := some c10Sp, fps := some c10Fp,
        bitrate := some c10Br, size := some c10Sz } ∧
    mapGet (step 2 c10s0 (Ev.stderrData "t" c10Chunk)).activeJobs "t" =
      some { c10Job with stderrBuf := c10Job.stderrBuf ++ c10Chunk,
                         progress := progressFromTime c10Tg } :=
  c10_first_record_sticks c10s0 2 "t" c10Chunk c10Job c10Tg c10Sp c10Fp c10Br c10Sz
    (by decide) rfl rfl (by decide) (by decide) (by decide) (by decide) (by decide)
    (by decide)

end VC
